import Mathlib

/-
Verification of the helmhound value-path / diff engine.

The Go sources are shallowly embedded:
  - `Val` models the YAML-decoded Go value union (`map[string]interface{}`,
    `[]interface{}`, `string`, integer kinds, `float64` as a `GoFloat` —
    a finite rational, a signed infinity, or NaN, on which the Go `==`
    used by `reflect.DeepEqual` is not reflexive — `bool`, and the nil
    interface).
  - Go maps are modelled as association lists with unique keys; lookup
    returns the first binding and insertion replaces the existing binding.
  - `pkg/helmwrap/values.go`: `extractPaths`, `splitPath`, `getValueAtPath`,
    `determineValueType`, `FormatValueReferences`.
  - `pkg/helmwrap/client.go`: `modifyValueAtPath`, `copyMap`, `copySlice`,
    `setValueAtPath` (both a pure version and a heap-level version that
    makes the aliasing discipline of the Go code explicit).
  - `pkg/yamldiff/diff.go`: `compareValues` / `compareMap` / `compareSlice`
    and `findDifferencesWithValues` with its helpers.
-/

/-- An IEEE `float64` value as YAML decoding produces it: a finite value
(kept as its exact rational), a signed infinity (`true` is `+Inf`), or
NaN. Go `==` on `float64` — the comparison `reflect.DeepEqual` performs —
is equality of finite values and of same-signed infinities, and is false
on NaN, even against itself. -/
inductive GoFloat where
  | finite (q : Rat)
  | inf (pos : Bool)
  | nan
deriving DecidableEq, Repr

/-- Go `==` on two `float64` values (the comparison `reflect.DeepEqual`
performs on them): NaN is unequal to everything, itself included. -/
def goFloatEqB : GoFloat → GoFloat → Bool
  | .finite a, .finite b => decide (a = b)
  | .inf a, .inf b => decide (a = b)
  | _, _ => false

/-- Whether a `float64` value is NaN. -/
def GoFloat.isNan : GoFloat → Bool
  | .nan => true
  | _ => false

/-- A YAML-decoded Go value: the dynamic union over which the helmhound
`pkg/helmwrap` and `pkg/yamldiff` algorithms operate. `null` is the nil
interface; `float` keeps the value of a `float64` (`yaml.v3` decodes
`.nan` and `.inf` into such values). -/
inductive Val where
  | str (s : String)
  | int (n : Int)
  | float (q : GoFloat)
  | bool (b : Bool)
  | null
  | arr (xs : List Val)
  | map (m : List (String × Val))

theorem sizeOf_of_mem_list {x : Val} {xs : List Val} (h : x ∈ xs) : sizeOf x < sizeOf xs :=
  List.sizeOf_lt_of_mem h

theorem sizeOf_snd_of_mem {kv : String × Val} {m : List (String × Val)} (h : kv ∈ m) :
    sizeOf kv.2 < sizeOf m := by
  have h1 := List.sizeOf_lt_of_mem h
  obtain ⟨k, v⟩ := kv
  simp at h1 ⊢
  omega

/-- Structural induction principle for `Val` exposing membership-based
hypotheses for the nested lists. -/
theorem val_ind {P : Val → Prop}
    (hstr : ∀ s, P (.str s)) (hint : ∀ n, P (.int n)) (hfloat : ∀ q, P (.float q))
    (hbool : ∀ b, P (.bool b)) (hnull : P .null)
    (harr : ∀ xs, (∀ x ∈ xs, P x) → P (.arr xs))
    (hmap : ∀ m, (∀ kv ∈ m, P kv.2) → P (.map m)) : ∀ v, P v
  | .str s => hstr s
  | .int n => hint n
  | .float q => hfloat q
  | .bool b => hbool b
  | .null => hnull
  | .arr xs => harr xs (fun x hx =>
      have : sizeOf x < sizeOf (Val.arr xs) := by
        have := sizeOf_of_mem_list hx; simp; omega
      val_ind hstr hint hfloat hbool hnull harr hmap x)
  | .map m => hmap m (fun kv hkv =>
      have : sizeOf kv.2 < 1 + sizeOf m := by
        have := sizeOf_snd_of_mem hkv; omega
      val_ind hstr hint hfloat hbool hnull harr hmap kv.2)
termination_by v => sizeOf v

mutual
def Val.beq : Val → Val → Bool
  | .str a, .str b => a == b
  | .int a, .int b => a == b
  | .float a, .float b => decide (a = b)
  | .bool a, .bool b => a == b
  | .null, .null => true
  | .arr xs, .arr ys => beqElems xs ys
  | .map m1, .map m2 => beqEntries m1 m2
  | _, _ => false

def beqElems : List Val → List Val → Bool
  | [], [] => true
  | x :: xs, y :: ys => Val.beq x y && beqElems xs ys
  | _, _ => false

def beqEntries : List (String × Val) → List (String × Val) → Bool
  | [], [] => true
  | (k1, v1) :: r1, (k2, v2) :: r2 => k1 == k2 && Val.beq v1 v2 && beqEntries r1 r2
  | _, _ => false
end

theorem val_beq_refl : ∀ v : Val, Val.beq v v = true := by
  intro v
  induction v using val_ind with
  | hstr s => simp [Val.beq]
  | hint n => simp [Val.beq]
  | hfloat q => simp [Val.beq]
  | hbool b => simp [Val.beq]
  | hnull => simp [Val.beq]
  | harr xs ih =>
    simp only [Val.beq]
    induction xs with
    | nil => simp [beqElems]
    | cons x rest ihl =>
      simp only [beqElems, Bool.and_eq_true]
      exact ⟨ih x (by simp), ihl (fun y hy => ih y (by simp [hy]))⟩
  | hmap m ih =>
    simp only [Val.beq]
    induction m with
    | nil => simp [beqEntries]
    | cons kv rest ihl =>
      obtain ⟨k, v⟩ := kv
      simp only [beqEntries, Bool.and_eq_true]
      refine ⟨⟨by simp, ih (k, v) (by simp)⟩, ihl (fun kv h => ih kv (by simp [h]))⟩

theorem val_beq_eq : ∀ a b : Val, Val.beq a b = true → a = b := by
  intro a
  induction a using val_ind with
  | hstr s => intro b h; cases b with
    | str t => simp [Val.beq] at h; simp [h]
    | _ => simp [Val.beq] at h
  | hint n => intro b h; cases b with
    | int t => simp [Val.beq] at h; simp [h]
    | _ => simp [Val.beq] at h
  | hfloat q => intro b h; cases b with
    | float t => simp [Val.beq] at h; simp [h]
    | _ => simp [Val.beq] at h
  | hbool b' => intro b h; cases b with
    | bool t => simp [Val.beq] at h; simp [h]
    | _ => simp [Val.beq] at h
  | hnull => intro b h; cases b with
    | null => rfl
    | _ => simp [Val.beq] at h
  | harr xs ih =>
    intro b h
    cases b with
    | arr ys =>
      simp only [Val.beq] at h
      congr 1
      induction xs generalizing ys with
      | nil => cases ys <;> simp_all [beqElems]
      | cons x rest ihl =>
        cases ys with
        | nil => simp [beqElems] at h
        | cons y rys =>
          simp only [beqElems, Bool.and_eq_true] at h
          have h1 := ih x (by simp) y h.1
          have h2 := ihl (fun z hz => ih z (by simp [hz])) rys h.2
          simp [h1, h2]
    | _ => simp [Val.beq] at h
  | hmap m ih =>
    intro b h
    cases b with
    | map m2 =>
      simp only [Val.beq] at h
      congr 1
      induction m generalizing m2 with
      | nil => cases m2 <;> simp_all [beqEntries]
      | cons kv rest ihl =>
        obtain ⟨k, v⟩ := kv
        cases m2 with
        | nil => simp [beqEntries] at h
        | cons kv2 r2 =>
          obtain ⟨k2, v2⟩ := kv2
          simp only [beqEntries, Bool.and_eq_true] at h
          have h1 : v = v2 := ih (k, v) (by simp) v2 h.1.2
          have h2 := ihl (fun z hz => ih z (by simp [hz])) r2 h.2
          simp only [beq_iff_eq] at h
          simp [h.1.1, h1, h2]
    | _ => simp [Val.beq] at h

instance : DecidableEq Val := fun a b =>
  decidable_of_iff (Val.beq a b = true) ⟨val_beq_eq a b, fun h => h ▸ val_beq_refl a⟩

/-- Lookup in a Go map modelled as an association list (first binding wins;
with unique keys this is exactly Go map indexing, `v, ok := m[k]`). -/
def alLookup {α : Type} : List (String × α) → String → Option α
  | [], _ => none
  | (k, v) :: rest, key => if k = key then some v else alLookup rest key

/-- Go map assignment `m[k] = v`: replace the existing binding, else append. -/
def alSet {α : Type} : List (String × α) → String → α → List (String × α)
  | [], key, v => [(key, v)]
  | (k, w) :: rest, key, v => if k = key then (key, v) :: rest else (k, w) :: alSet rest key v

theorem sizeOf_alLookup {m : List (String × Val)} {k : String} {v : Val}
    (h : alLookup m k = some v) : sizeOf v < sizeOf m := by
  induction m with
  | nil => simp [alLookup] at h
  | cons hd tl ih =>
    obtain ⟨k', v'⟩ := hd
    simp only [alLookup] at h
    split at h
    · cases h; simp; omega
    · have := ih h; simp; omega

theorem alLookup_alSet_self {α : Type} (m : List (String × α)) (k : String) (v : α) :
    alLookup (alSet m k v) k = some v := by
  induction m with
  | nil => simp [alSet, alLookup]
  | cons hd tl ih =>
    obtain ⟨k', v'⟩ := hd
    by_cases hk : k' = k
    · simp [alSet, alLookup, hk]
    · simp [alSet, alLookup, hk, ih]

theorem alLookup_alSet_ne {α : Type} (m : List (String × α)) (k k2 : String) (v : α)
    (h : k2 ≠ k) : alLookup (alSet m k v) k2 = alLookup m k2 := by
  have hne : ¬(k = k2) := fun hh => h hh.symm
  induction m with
  | nil =>
    simp only [alSet, alLookup]
    rw [if_neg hne]
  | cons hd tl ih =>
    obtain ⟨k', v'⟩ := hd
    by_cases hk : k' = k
    · subst hk
      simp only [alSet, if_pos rfl, alLookup]
      rw [if_neg hne, if_neg hne]
    · simp only [alSet, if_neg hk, alLookup]
      by_cases hk2 : k' = k2
      · rw [if_pos hk2, if_pos hk2]
      · rw [if_neg hk2, if_neg hk2]
        exact ih

theorem alLookup_of_mem_nodup {m : List (String × Val)} {k : String} {v : Val}
    (hmem : (k, v) ∈ m) (hnd : (m.map Prod.fst).Nodup) : alLookup m k = some v := by
  induction m with
  | nil => simp at hmem
  | cons hd tl ih =>
    obtain ⟨k', v'⟩ := hd
    simp only [List.map_cons, List.nodup_cons] at hnd
    rcases List.mem_cons.mp hmem with heq | htl
    · cases heq
      simp [alLookup]
    · have hk : k' ≠ k := by
        intro hk
        exact hnd.1 (by simpa [hk] using List.mem_map_of_mem Prod.fst htl)
      simp [alLookup, hk, ih htl hnd.2]

theorem alLookup_isSome_of_mem {m : List (String × Val)} {k : String} {v : Val}
    (hmem : (k, v) ∈ m) : (alLookup m k).isSome := by
  induction m with
  | nil => simp at hmem
  | cons hd tl ih =>
    obtain ⟨k', v'⟩ := hd
    rcases List.mem_cons.mp hmem with heq | htl
    · cases heq
      simp [alLookup]
    · by_cases hk : k' = k
      · simp [alLookup, hk]
      · simp [alLookup, hk, ih htl]

theorem alLookup_mem {α : Type} {m : List (String × α)} {k : String} {v : α}
    (h : alLookup m k = some v) : (k, v) ∈ m := by
  induction m with
  | nil => simp [alLookup] at h
  | cons hd tl ih =>
    obtain ⟨k', v'⟩ := hd
    simp only [alLookup] at h
    split at h
    · rename_i hk
      cases h
      subst hk
      simp
    · simp [ih h]

/-- Result type of `determineValueType` (`ValueType` in values.go). -/
inductive ValueType where
  | string
  | int
  | bool
  | slice
  | map
  | unknown
deriving DecidableEq, Repr

/-- values.go `determineValueType`: every integer width and every float
classifies as `int`; the nil interface falls to the default `unknown`. -/
def determineValueType : Val → ValueType
  | .str _ => .string
  | .int _ => .int
  | .float _ => .int
  | .bool _ => .bool
  | .arr _ => .slice
  | .map _ => .map
  | .null => .unknown

/-- Discriminant of `reflect.TypeOf` on a (non-nil) decoded value: two
values have equal dynamic type iff their `typeIndex` agree. -/
def typeIndex : Val → Nat
  | .str _ => 0
  | .int _ => 1
  | .float _ => 2
  | .bool _ => 3
  | .null => 4
  | .arr _ => 5
  | .map _ => 6

/-- values.go `splitPath` character loop: `cur` is the accumulated segment,
a '.' flushes a non-empty segment, the final segment is flushed at the end. -/
def splitPathAux : List Char → List Char → List String
  | [], cur => if cur = [] then [] else [String.mk cur]
  | c :: cs, cur =>
    if c = '.' then
      (if cur = [] then splitPathAux cs [] else String.mk cur :: splitPathAux cs [])
    else splitPathAux cs (cur ++ [c])

/-- values.go `splitPath`. -/
def splitPath (path : String) : List String := splitPathAux path.data []

/-- values.go `getValueAtPath` error cases. -/
inductive GetErr where
  | keyNotFound (k : String)
  | notMap (k : String)
deriving DecidableEq, Repr

/-- The key-walking loop of values.go `getValueAtPath`. -/
def getKeys : Val → List String → Except GetErr Val
  | cur, [] => .ok cur
  | cur, k :: rest =>
    match cur with
    | .map m =>
      match alLookup m k with
      | some v => getKeys v rest
      | none => .error (.keyNotFound k)
    | _ => .error (.notMap k)

/-- values.go `getValueAtPath`. -/
def getValueAtPath (data : Val) (path : String) : Except GetErr Val :=
  if path = "" then .ok data else getKeys data (splitPath path)

/-- client.go `setValueAtPath` failure modes. `emptyPath` is the explicit
"empty path" error; `notMap` is the "cannot navigate through non-map value"
error; `noFinalKey` models the `keys[len(keys)-1]` index panic that fires
when a non-empty path splits into zero segments (e.g. "."). -/
inductive SetErr where
  | emptyPath
  | notMap (k : String)
  | noFinalKey
deriving DecidableEq, Repr

/-- The navigation loop of client.go `setValueAtPath`: walk the first
`len(keys)-1` keys, creating empty intermediate maps for missing keys and
failing on non-map intermediates, then assign the final key. -/
def setKeys : List (String × Val) → List String → Val → Except SetErr (List (String × Val))
  | _, [], _ => .error .noFinalKey
  | m, [k], v => .ok (alSet m k v)
  | m, k :: rest, v =>
    match alLookup m k with
    | some (.map inner) => (setKeys inner rest v).map (fun inner2 => alSet m k (.map inner2))
    | some _ => .error (.notMap k)
    | none => (setKeys [] rest v).map (fun inner2 => alSet m k (.map inner2))

/-- client.go `setValueAtPath`. -/
def setValueAtPath (data : List (String × Val)) (path : String) (v : Val) :
    Except SetErr (List (String × Val)) :=
  if path = "" then .error .emptyPath else setKeys data (splitPath path) v

/-- yamldiff diff.go `buildPath`. -/
def buildPath (basePath key : String) : String :=
  if basePath = "" then key else basePath ++ "." ++ key

/-- yamldiff diff.go `buildArrayPath` (`strconv.Itoa`, correct decimal). -/
def buildArrayPath (basePath : String) (i : Nat) : String :=
  basePath ++ "[" ++ toString i ++ "]"

/-- Truncation of a float toward zero, Go `int(v)` on a `float64`. -/
def ratTrunc (q : Rat) : Int :=
  if q.num < 0 then -((((-q.num).toNat / q.den : Nat) : Int)) else (((q.num.toNat / q.den : Nat) : Int))

/-- Go `int(v)` on a `float64` value: truncation toward zero on finite
values. On NaN and the infinities the Go conversion is
implementation-dependent; it is modelled here as saturation (no theorem
depends on the values chosen for these cases). -/
def goFloatTrunc : GoFloat → Int
  | .finite q => ratTrunc q
  | .inf b => if b then (2 ^ 63 - 1 : Int) else -(2 ^ 63 : Int)
  | .nan => -(2 ^ 63 : Int)

/-- `reflect.DeepEqual` as the two differs invoke it in their default
branch: on two non-nil scalars of the same dynamic type it is Go `==` on
the dynamic values, so on floats it is IEEE equality, false at NaN even
against itself. (Arms mixing constructors are unreachable there: the
differs recurse on map/slice pairs and bail out earlier on nil or on a
dynamic-type mismatch.) -/
def deepEqualScalarB : Val → Val → Bool
  | .str a, .str b => decide (a = b)
  | .int a, .int b => decide (a = b)
  | .float a, .float b => goFloatEqB a b
  | .bool a, .bool b => decide (a = b)
  | .null, .null => true
  | _, _ => false

/- values.go `extractPaths` and its two range loops. A mapping emits each
the full path of each key and recurses; a sequence emits, for index `i`, the base
path extended with "[", `string(rune(i+'0'))` (one character of code
`i + 48`), "]", and recurses; scalars emit nothing. -/
mutual
def extractPaths (pre : String) : Val → List String
  | .map m => extractPathsEntries pre m
  | .arr xs => extractPathsElems pre 0 xs
  | _ => []

def extractPathsEntries (pre : String) : List (String × Val) → List String
  | [] => []
  | (k, v) :: rest =>
    (if pre = "" then k else pre ++ "." ++ k) ::
      (extractPaths (if pre = "" then k else pre ++ "." ++ k) v ++ extractPathsEntries pre rest)

def extractPathsElems (pre : String) (i : Nat) : List Val → List String
  | [] => []
  | x :: xs =>
    (pre ++ "[" ++ String.mk [Char.ofNat (i + 48)] ++ "]") ::
      (extractPaths (pre ++ "[" ++ String.mk [Char.ofNat (i + 48)] ++ "]") x ++
        extractPathsElems pre (i + 1) xs)
end

/- client.go `copyMap` / `copySlice`, value-level: nested maps and slices
are rebuilt recursively, scalars are carried over. -/
mutual
def copyVal : Val → Val
  | .map m => .map (copyMap m)
  | .arr xs => .arr (copySlice xs)
  | v => v

def copyMap : List (String × Val) → List (String × Val)
  | [] => []
  | (k, v) :: rest => (k, copyVal v) :: copyMap rest

def copySlice : List Val → List Val
  | [] => []
  | x :: xs => copyVal x :: copySlice xs
end

/-- client.go `modifyValueAtPath` failure modes: a failed read of the
current value, the per-type "expected ... value at path" mismatches, the
default "unsupported value type for modification", and a failed write. -/
inductive ModErr where
  | getFailed (e : GetErr)
  | typeMismatch
  | unsupportedType
  | setFailed (e : SetErr)
deriving DecidableEq, Repr

/-- The `switch valueType` block of client.go `modifyValueAtPath`:
  - string: prepend "helmhound-test-",
  - int: add 1 (a float is converted with Go `int(v)` first, then
    incremented, producing an integer),
  - bool: negate,
  - slice: copy and append the sentinel element "helmhound-test-element",
  - map: deep-copy and assign sentinel key "helmhound-test-key" to
    "helmhound-test-value",
  - anything else: unsupported. -/
def computeNewValue (currentValue : Val) (ty : ValueType) : Except ModErr Val :=
  match ty with
  | .string =>
    match currentValue with
    | .str s => .ok (.str ("helmhound-test-" ++ s))
    | _ => .error .typeMismatch
  | .int =>
    match currentValue with
    | .int n => .ok (.int (n + 1))
    | .float q => .ok (.int (goFloatTrunc q + 1))
    | _ => .error .typeMismatch
  | .bool =>
    match currentValue with
    | .bool b => .ok (.bool (!b))
    | _ => .error .typeMismatch
  | .slice =>
    match currentValue with
    | .arr xs => .ok (.arr (xs ++ [.str "helmhound-test-element"]))
    | _ => .error .typeMismatch
  | .map =>
    match currentValue with
    | .map m => .ok (.map (alSet (copyMap m) "helmhound-test-key" (.str "helmhound-test-value")))
    | _ => .error .typeMismatch
  | .unknown => .error .unsupportedType

/-- client.go `modifyValueAtPath`: deep-copy the values, read the current
value at the path, perturb it according to `ty`, write it back on the copy. -/
def modifyValueAtPath (values : List (String × Val)) (path : String) (ty : ValueType) :
    Except ModErr (List (String × Val)) :=
  let modifiedValues := copyMap values
  match getValueAtPath (.map modifiedValues) path with
  | .error e => .error (.getFailed e)
  | .ok currentValue =>
    match computeNewValue currentValue ty with
    | .error e => .error e
    | .ok newValue =>
      match setValueAtPath modifiedValues path newValue with
      | .error e => .error (.setFailed e)
      | .ok res => .ok res

/-- diff.go `compareMap`, second loop: keys present only in the right map
are recorded (in the paths-only differ). -/
def compareMapRight (basePath : String) (lm rm : List (String × Val)) : List String :=
  match rm with
  | [] => []
  | (k, _) :: rest =>
    (if (alLookup lm k).isSome then [] else [buildPath basePath k]) ++
      compareMapRight basePath lm rest

/- diff.go `compareValues` / `compareMap` (first loop) / `compareSlice`:
the paths-only structural differ.  `compareSliceAux basePath i l r` is the
`for i < maxLen` loop of `compareSlice` from index `i` on. -/
mutual
def compareValues (path : String) (l r : Val) : List String :=
  if l = .null ∧ r = .null then []
  else if l = .null ∨ r = .null then [path]
  else if typeIndex l ≠ typeIndex r then [path]
  else
    match l, r with
    | .map lm, .map rm => compareMapLeft path rm lm ++ compareMapRight path lm rm
    | .arr lx, .arr rx => compareSliceAux path 0 lx rx
    | l', r' => if deepEqualScalarB l' r' then [] else [path]
termination_by sizeOf l + sizeOf r

def compareMapLeft (basePath : String) (rm lm : List (String × Val)) : List String :=
  match lm with
  | [] => []
  | (k, v) :: rest =>
    (match h : alLookup rm k with
     | some rv => compareValues (buildPath basePath k) v rv
     | none => [buildPath basePath k]) ++ compareMapLeft basePath rm rest
termination_by sizeOf rm + sizeOf lm
decreasing_by
  all_goals try have h2 := sizeOf_alLookup h
  all_goals simp
  all_goals omega

def compareSliceAux (basePath : String) (i : Nat) (l r : List Val) : List String :=
  match l, r with
  | [], [] => []
  | [], _ :: rs => buildArrayPath basePath i :: compareSliceAux basePath (i + 1) [] rs
  | _ :: ls, [] => buildArrayPath basePath i :: compareSliceAux basePath (i + 1) ls []
  | lv :: ls, rv :: rs =>
    compareValues (buildArrayPath basePath i) lv rv ++ compareSliceAux basePath (i + 1) ls rs
termination_by sizeOf l + sizeOf r
end

/-- diff.go `CompareYAML`. -/
def CompareYAML (left right : List (String × Val)) : List String :=
  compareValues "" (.map left) (.map right)

/-- diff.go `DiffType`. -/
inductive DiffType where
  | modified
  | added
  | removed
deriving DecidableEq, Repr

/-- diff.go `DiffValue`; the Go nil on an absent side is modelled by `Val.null`. -/
structure DiffValue where
  left : Val
  right : Val
  dtype : DiffType
deriving DecidableEq

/-- diff.go `findMapDifferencesWithValues`, second loop: the ordered
sequence of `diffs[path] = DiffValue{...}` assignments it performs — one
`added` record per key present only in the right map. -/
def diffOpsMapRight (basePath : String) (lm rm : List (String × Val)) :
    List (String × DiffValue) :=
  match rm with
  | [] => []
  | (k, rv) :: rest =>
    (if (alLookup lm k).isSome then [] else [(buildPath basePath k, ⟨.null, rv, .added⟩)]) ++
      diffOpsMapRight basePath lm rest

/- diff.go `findDifferencesWithValues` and its map/slice helpers. The Go
code threads a shared `map[string]DiffValue` and performs a sequence of
`diffs[path] = value` assignments; `diffOps` is that exact sequence of
assignments in execution order (left-map loop in entry order with its
recursions, then right-map loop; slice loop in index order), and
`findDiffAux` below replays the assignments on the accumulator map. -/
mutual
def diffOps (path : String) (l r : Val) : List (String × DiffValue) :=
  if l = .null ∧ r = .null then []
  else if l = .null then [(path, ⟨.null, r, .added⟩)]
  else if r = .null then [(path, ⟨l, .null, .removed⟩)]
  else if typeIndex l ≠ typeIndex r then [(path, ⟨l, r, .modified⟩)]
  else
    match l, r with
    | .map lm, .map rm => diffOpsMapLeft path rm lm ++ diffOpsMapRight path lm rm
    | .arr lx, .arr rx => diffOpsSliceAux path 0 lx rx
    | l', r' => if deepEqualScalarB l' r' then [] else [(path, ⟨l', r', .modified⟩)]
termination_by sizeOf l + sizeOf r

def diffOpsMapLeft (basePath : String) (rm lm : List (String × Val)) :
    List (String × DiffValue) :=
  match lm with
  | [] => []
  | (k, v) :: rest =>
    (match h : alLookup rm k with
     | some rv => diffOps (buildPath basePath k) v rv
     | none => [(buildPath basePath k, ⟨v, .null, .removed⟩)]) ++
      diffOpsMapLeft basePath rm rest
termination_by sizeOf rm + sizeOf lm
decreasing_by
  all_goals try have h2 := sizeOf_alLookup h
  all_goals simp
  all_goals omega

def diffOpsSliceAux (basePath : String) (i : Nat) (l r : List Val) :
    List (String × DiffValue) :=
  match l, r with
  | [], [] => []
  | [], rv :: rs =>
    (buildArrayPath basePath i, ⟨.null, rv, .added⟩) :: diffOpsSliceAux basePath (i + 1) [] rs
  | lv :: ls, [] =>
    (buildArrayPath basePath i, ⟨lv, .null, .removed⟩) :: diffOpsSliceAux basePath (i + 1) ls []
  | lv :: ls, rv :: rs =>
    diffOps (buildArrayPath basePath i) lv rv ++ diffOpsSliceAux basePath (i + 1) ls rs
termination_by sizeOf l + sizeOf r
end

/-- diff.go `findDifferencesWithValues`: replay, on the accumulator map,
the assignment sequence the recursion performs (`alSet` is the Go
`diffs[path] = value`). -/
def findDiffAux (path : String) (l r : Val) (diffs : List (String × DiffValue)) :
    List (String × DiffValue) :=
  (diffOps path l r).foldl (fun d pr => alSet d pr.1 pr.2) diffs

/-- diff.go `FindDifferencesWithValues`. -/
def FindDifferencesWithValues (left right : List (String × Val)) :
    List (String × DiffValue) :=
  findDiffAux "" (.map left) (.map right) []

/-- diff.go `extractManifestKey`: everything before the first '.', or the
whole path when it has no '.'. -/
def extractManifestKey (path : String) : String :=
  String.mk (path.data.takeWhile (fun c => c ≠ '.'))

/-- Append to a manifest group, keeping first-seen group order. -/
def groupAppend (gs : List (String × List String)) (key p : String) :
    List (String × List String) :=
  match gs with
  | [] => [(key, [p])]
  | (k, ps) :: rest =>
    if k = key then (k, ps ++ [p]) :: rest else (k, ps) :: groupAppend rest key p

/-- diff.go `CompareYAMLGrouped`: the paths-only differ drives grouping by
manifest key. -/
def CompareYAMLGrouped (left right : List (String × Val)) : List (String × List String) :=
  (CompareYAML left right).foldl (fun gs p => groupAppend gs (extractManifestKey p) p) []

/-- values.go `ValueReference`. -/
structure ValueReference where
  file : String
  line : Nat
  content : String
  fullLine : String
  manifestPath : String
deriving DecidableEq, Repr

/-- One output line of values.go `FormatValueReferences`:
`fmt.Sprintf("%dL: %s\n", ref.Line, manifestInfo)` with the manifest path
falling back to the matched content when empty. -/
def refLine (ref : ValueReference) : String :=
  toString ref.line ++ "L: " ++ (if ref.manifestPath = "" then ref.content else ref.manifestPath) ++ "\n"

/-- Append a reference to the group of its file, `fileGroups[ref.File] = append(...)`. -/
def groupsAdd (gs : List (String × List ValueReference)) (f : String) (ref : ValueReference) :
    List (String × List ValueReference) :=
  match gs with
  | [] => [(f, [ref])]
  | (k, rs) :: rest =>
    if k = f then (k, rs ++ [ref]) :: rest else (k, rs) :: groupsAdd rest f ref

/-- The `fileGroups` map built by values.go `FormatValueReferences`; list
order is first-seen file order, which is the key set of the Go map. -/
def buildFileGroups (refs : List ValueReference) : List (String × List ValueReference) :=
  refs.foldl (fun gs r => groupsAdd gs r.file r) []

/-- The body emitted for one file group: header line then one line per
reference, in the order they were appended. -/
def formatGroup (f : String) (rs : List ValueReference) : String :=
  "=== " ++ f ++ " ===\n" ++ String.join (rs.map refLine)

/-- values.go `FormatValueReferences`. Go iterates the `fileGroups` map in
an unspecified order; `order` is the sequence of keys that iteration
yields, constrained in the theorems to be some permutation of the group
keys. -/
def formatValueReferences (order : List String) (refs : List ValueReference) : String :=
  if refs.length = 0 then "No references found for the specified value."
  else
    String.join (order.map (fun f =>
      match alLookup (buildFileGroups refs) f with
      | some rs => formatGroup f rs
      | none => ""))

/-- Heap-level value for the aliasing model of client.go: identical to
`Val` except that a Go `map[string]interface{}` value is a reference into
the heap, so that in-place map mutation and deep copying are explicit. -/
inductive HVal where
  | str (s : String)
  | int (n : Int)
  | float (q : GoFloat)
  | bool (b : Bool)
  | null
  | arr (xs : List HVal)
  | ref (a : Nat)

/-- A heap map object: the entry list of one `map[string]interface{}`. -/
abbrev HObj := List (String × HVal)

/-- The heap: address `a` holds the `a`-th map object. -/
abbrev Heap := List HObj

/- Heap-level client.go `copyMap` / `copySlice`. Nested maps are copied
into freshly allocated objects (children first, then the enclosing
object); slices are rebuilt element-wise; scalars are plain values. The
fuel only bounds recursion depth and is irrelevant for terminating runs. -/
mutual
def copyHVal : Nat → Heap → HVal → Option (Heap × HVal)
  | 0, _, _ => none
  | fuel + 1, h, .ref a =>
    match h.get? a with
    | none => none
    | some obj =>
      match copyHObj fuel h obj with
      | none => none
      | some (h1, obj2) => some (h1 ++ [obj2], .ref h1.length)
  | fuel + 1, h, .arr xs =>
    match copyHList fuel h xs with
    | none => none
    | some (h1, xs2) => some (h1, .arr xs2)
  | _ + 1, h, v => some (h, v)

def copyHObj : Nat → Heap → HObj → Option (Heap × HObj)
  | 0, _, _ => none
  | fuel + 1, h, [] => some (h, [])
  | fuel + 1, h, (k, v) :: rest =>
    match copyHVal fuel h v with
    | none => none
    | some (h1, v2) =>
      match copyHObj fuel h1 rest with
      | none => none
      | some (h2, rest2) => some (h2, (k, v2) :: rest2)

def copyHList : Nat → Heap → List HVal → Option (Heap × List HVal)
  | 0, _, _ => none
  | fuel + 1, h, [] => some (h, [])
  | fuel + 1, h, x :: xs =>
    match copyHVal fuel h x with
    | none => none
    | some (h1, x2) =>
      match copyHList fuel h1 xs with
      | none => none
      | some (h2, xs2) => some (h2, x2 :: xs2)
end

/-- Heap-level key walk of values.go `getValueAtPath` (read-only). -/
def getHKeys (h : Heap) : HVal → List String → Option HVal
  | cur, [] => some cur
  | cur, k :: rest =>
    match cur with
    | .ref a =>
      match h.get? a with
      | none => none
      | some obj =>
        match alLookup obj k with
        | some v => getHKeys h v rest
        | none => none
    | _ => none

/-- Heap-level values.go `getValueAtPath`. -/
def getHValueAtPath (h : Heap) (root : HVal) (path : String) : Option HVal :=
  if path = "" then some root else getHKeys h root (splitPath path)

/-- Heap-level client.go `setValueAtPath`: navigate from the object at
address `a`, allocating empty maps for missing intermediate keys and
mutating the final object in place; `none` covers the "cannot navigate
through non-map value" error and the zero-segment index panic. -/
def setHKeys (h : Heap) (a : Nat) (ks : List String) (v : HVal) : Option Heap :=
  match ks with
  | [] => none
  | [k] =>
    match h.get? a with
    | none => none
    | some obj => some (h.set a (alSet obj k v))
  | k :: rest =>
    match h.get? a with
    | none => none
    | some obj =>
      match alLookup obj k with
      | some (.ref b) => setHKeys h b rest v
      | some _ => none
      | none =>
        let b := h.length
        setHKeys ((h ++ [[]]).set a (alSet obj k (.ref b))) b rest v

/-- Heap-level client.go `setValueAtPath` with the empty-path guard. -/
def setHValueAtPath (h : Heap) (a : Nat) (path : String) (v : HVal) : Option Heap :=
  if path = "" then none else setHKeys h a (splitPath path) v

/-- The `switch valueType` block of client.go `modifyValueAtPath` at heap
level. Only the map case allocates: `modifiedMap := make(...)`,
`copyMap(mapVal, modifiedMap)`, then the sentinel assignment, yielding a
reference to the fresh object. The slice case shallow-copies the element
list and appends the sentinel, sharing any element references. -/
def computeNewHValue (fuel : Nat) (h : Heap) (currentValue : HVal) (ty : ValueType) :
    Option (Heap × HVal) :=
  match ty with
  | .string =>
    match currentValue with
    | .str s => some (h, .str ("helmhound-test-" ++ s))
    | _ => none
  | .int =>
    match currentValue with
    | .int n => some (h, .int (n + 1))
    | .float q => some (h, .int (goFloatTrunc q + 1))
    | _ => none
  | .bool =>
    match currentValue with
    | .bool b => some (h, .bool (!b))
    | _ => none
  | .slice =>
    match currentValue with
    | .arr xs => some (h, .arr (xs ++ [.str "helmhound-test-element"]))
    | _ => none
  | .map =>
    match currentValue with
    | .ref a =>
      match h.get? a with
      | none => none
      | some obj =>
        match copyHObj fuel h obj with
        | none => none
        | some (h1, obj2) =>
          some (h1 ++ [alSet obj2 "helmhound-test-key" (.str "helmhound-test-value")],
            .ref h1.length)
    | _ => none
  | .unknown => none

/-- Heap-level client.go `modifyValueAtPath`: deep-copy the map object at
`root`, read the current value at `path` on the copy, build the new value
and write it back on the copy. The result is the final heap paired with
the address of the copy on success, `none` on any failure; in the Go code a
failure simply discards the copy. -/
def modifyHValueAtPath (fuel : Nat) (h : Heap) (root : Nat) (path : String) (ty : ValueType) :
    Heap × Option Nat :=
  match h.get? root with
  | none => (h, none)
  | some obj =>
    match copyHObj fuel h obj with
    | none => (h, none)
    | some (h1, obj2) =>
      let h2 := h1 ++ [obj2]
      let croot := h1.length
      match getHValueAtPath h2 (.ref croot) path with
      | none => (h2, none)
      | some currentValue =>
        match computeNewHValue fuel h2 currentValue ty with
        | none => (h2, none)
        | some (h3, newValue) =>
          match setHValueAtPath h3 croot path newValue with
          | none => (h3, none)
          | some h4 => (h4, some croot)

/- Read back the tree rooted at a heap value (fuel-bounded dereference);
this is the value a Go caller observes through their `map[string]interface{}`. -/
mutual
def resolveHVal : Nat → Heap → HVal → Option Val
  | 0, _, _ => none
  | fuel + 1, h, .ref a =>
    match h.get? a with
    | none => none
    | some obj =>
      match resolveHObj fuel h obj with
      | none => none
      | some m => some (.map m)
  | fuel + 1, h, .arr xs =>
    match resolveHList fuel h xs with
    | none => none
    | some ys => some (.arr ys)
  | _ + 1, _, .str s => some (.str s)
  | _ + 1, _, .int n => some (.int n)
  | _ + 1, _, .float q => some (.float q)
  | _ + 1, _, .bool b => some (.bool b)
  | _ + 1, _, .null => some .null

def resolveHObj : Nat → Heap → HObj → Option (List (String × Val))
  | 0, _, _ => none
  | fuel + 1, _, [] => some []
  | fuel + 1, h, (k, v) :: rest =>
    match resolveHVal fuel h v with
    | none => none
    | some v2 =>
      match resolveHObj fuel h rest with
      | none => none
      | some rest2 => some ((k, v2) :: rest2)

def resolveHList : Nat → Heap → List HVal → Option (List Val)
  | 0, _, _ => none
  | fuel + 1, _, [] => some []
  | fuel + 1, h, x :: xs =>
    match resolveHVal fuel h x with
    | none => none
    | some y =>
      match resolveHList fuel h xs with
      | none => none
      | some ys => some (y :: ys)
end

theorem copyVal_id : ∀ v : Val, copyVal v = v := by
  intro v
  induction v using val_ind with
  | hstr s => rfl
  | hint n => rfl
  | hfloat q => rfl
  | hbool b => rfl
  | hnull => rfl
  | harr xs ih =>
    simp only [copyVal]
    congr 1
    induction xs with
    | nil => rfl
    | cons x rest ihl =>
      simp only [copySlice]
      rw [ih x (by simp), ihl (fun y hy => ih y (by simp [hy]))]
  | hmap m ih =>
    simp only [copyVal]
    congr 1
    induction m with
    | nil => rfl
    | cons kv rest ihl =>
      obtain ⟨k, v⟩ := kv
      simp only [copyMap]
      rw [ih (k, v) (by simp), ihl (fun z hz => ih z (by simp [hz]))]

theorem copyMap_id (m : List (String × Val)) : copyMap m = m := by
  have h := copyVal_id (.map m)
  simpa [copyVal] using h

theorem setKeys_get : ∀ (ks : List String) (m t2 : List (String × Val)) (v : Val),
    setKeys m ks v = .ok t2 → getKeys (.map t2) ks = .ok v := by
  intro ks
  induction ks with
  | nil => intro m t2 v h; simp [setKeys] at h
  | cons k rest ih =>
    intro m t2 v h
    cases rest with
    | nil =>
      simp only [setKeys] at h
      cases h
      simp [getKeys, alLookup_alSet_self]
    | cons k2 rest2 =>
      simp only [setKeys] at h
      cases hl : alLookup m k with
      | some w =>
        rw [hl] at h
        cases w <;> simp only [Except.map] at h <;> try cases h
        case map inner =>
          cases hs : setKeys inner (k2 :: rest2) v with
          | error e => rw [hs] at h; simp [Except.map] at h
          | ok inner2 =>
            rw [hs] at h
            simp only [Except.map] at h
            cases h
            simp only [getKeys, alLookup_alSet_self]
            exact ih inner inner2 v hs
      | none =>
        rw [hl] at h
        cases hs : setKeys [] (k2 :: rest2) v with
        | error e => rw [hs] at h; simp [Except.map] at h
        | ok inner2 =>
          rw [hs] at h
          simp only [Except.map] at h
          cases h
          simp only [getKeys, alLookup_alSet_self]
          exact ih [] inner2 v hs

theorem getKeys_set_ok : ∀ (ks : List String) (m : List (String × Val)) (cur v : Val),
    getKeys (.map m) ks = .ok cur → ks ≠ [] → ∃ t2, setKeys m ks v = .ok t2 := by
  intro ks
  induction ks with
  | nil => intro m cur v _ hne; exact absurd rfl hne
  | cons k rest ih =>
    intro m cur v h _
    cases rest with
    | nil => exact ⟨alSet m k v, rfl⟩
    | cons k2 rest2 =>
      simp only [getKeys] at h
      cases hl : alLookup m k with
      | none => rw [hl] at h; cases h
      | some w =>
        rw [hl] at h
        cases w <;> simp only [getKeys] at h <;> try cases h
        case map inner =>
          obtain ⟨t3, ht3⟩ := ih inner cur v h (by simp)
          refine ⟨alSet m k (.map t3), ?_⟩
          simp [setKeys, hl, ht3, Except.map]

/-- C6: whenever `Set` succeeds, reading the returned tree at the same path
gives back exactly the written value: `Get(Set(t, p, v), p) == v`. -/
theorem c6_get_set_roundtrip (t t2 : List (String × Val)) (p : String) (v : Val)
    (h : setValueAtPath t p v = .ok t2) : getValueAtPath (.map t2) p = .ok v := by
  by_cases hp : p = ""
  · rw [setValueAtPath, if_pos hp] at h
    cases h
  · rw [setValueAtPath, if_neg hp] at h
    rw [getValueAtPath, if_neg hp]
    exact setKeys_get _ _ _ _ h

theorem c6_witness :
    setValueAtPath [] "a.b" (.int 7) = .ok [("a", Val.map [("b", Val.int 7)])] ∧
      getValueAtPath (.map [("a", Val.map [("b", Val.int 7)])]) "a.b" = .ok (.int 7) :=
  ⟨rfl, c6_get_set_roundtrip [] [("a", Val.map [("b", Val.int 7)])] "a.b" (.int 7) rfl⟩

/-- Success predicate for the navigation performed by client.go
`setValueAtPath`: at least one segment, and every intermediate segment
either missing (an empty map is created) or bound to a map. -/
def setOkB : List (String × Val) → List String → Bool
  | _, [] => false
  | _, [_] => true
  | m, k :: rest =>
    match alLookup m k with
    | some (.map inner) => setOkB inner rest
    | some _ => false
    | none => setOkB ([] : List (String × Val)) rest

theorem setKeys_not_emptyPath : ∀ (ks : List String) (m : List (String × Val)) (v : Val),
    setKeys m ks v ≠ .error .emptyPath := by
  intro ks
  induction ks with
  | nil => intro m v h; simp [setKeys] at h
  | cons k rest ih =>
    intro m v h
    cases rest with
    | nil => simp [setKeys] at h
    | cons k2 rest2 =>
      simp only [setKeys] at h
      cases hl : alLookup m k with
      | some w =>
        rw [hl] at h
        cases w <;> simp only at h <;> try simp at h
        case map inner =>
          cases hs : setKeys inner (k2 :: rest2) v with
          | error e =>
            rw [hs] at h
            simp only [Except.map] at h
            cases h
            exact ih inner v hs
          | ok inner2 => rw [hs] at h; simp [Except.map] at h
      | none =>
        rw [hl] at h
        cases hs : setKeys [] (k2 :: rest2) v with
        | error e =>
          rw [hs] at h
          simp only [Except.map] at h
          cases h
          exact ih [] v hs
        | ok inner2 => rw [hs] at h; simp [Except.map] at h

theorem setKeys_ok_iff : ∀ (ks : List String) (m : List (String × Val)) (v : Val),
    (∃ t2, setKeys m ks v = .ok t2) ↔ setOkB m ks = true := by
  intro ks
  induction ks with
  | nil => intro m v; simp [setKeys, setOkB]
  | cons k rest ih =>
    intro m v
    cases rest with
    | nil => simp [setKeys, setOkB]
    | cons k2 rest2 =>
      simp only [setKeys, setOkB]
      cases hl : alLookup m k with
      | some w =>
        cases w <;> simp only []
        case map inner =>
          rw [← ih inner v]
          constructor
          · rintro ⟨t2, ht⟩
            cases hs : setKeys inner (k2 :: rest2) v with
            | error e => rw [hs] at ht; simp [Except.map] at ht
            | ok inner2 => exact ⟨inner2, rfl⟩
          · rintro ⟨inner2, hs⟩
            exact ⟨alSet m k (.map inner2), by simp [hs, Except.map]⟩
        all_goals simp
      | none =>
        rw [← ih [] v]
        constructor
        · rintro ⟨t2, ht⟩
          cases hs : setKeys [] (k2 :: rest2) v with
          | error e => rw [hs] at ht; simp [Except.map] at ht
          | ok inner2 => exact ⟨inner2, rfl⟩
        · rintro ⟨inner2, hs⟩
          exact ⟨alSet m k (.map inner2), by simp [hs, Except.map]⟩

/-- C7 counterexample: "a.b" is a non-empty path, yet `Set` fails (with the
non-traversable error, not `EmptyPath`) because the intermediate key "a"
holds a scalar. -/
theorem c7_counterexample :
    "a.b" ≠ "" ∧ setValueAtPath [("a", Val.int 1)] "a.b" (.int 2) = .error (.notMap "a") :=
  ⟨by decide, rfl⟩

/-- C7 (amended): `Set` fails with `EmptyPath` exactly on the empty path;
a non-empty path succeeds (creating intermediate mappings for missing keys
and overwriting the final key) if and only if the path splits into at
least one segment and no existing intermediate segment holds a non-map
value — otherwise `Set` reports the non-traversable failure (or, for a
path of dots only, the final-key index panic), so `EmptyPath` is not the
only failure. -/
theorem c7_amended_set_error_characterization :
    ∀ (t : List (String × Val)) (p : String) (v : Val),
      (setValueAtPath t p v = .error .emptyPath ↔ p = "") ∧
      ((∃ t2, setValueAtPath t p v = .ok t2) ↔ p ≠ "" ∧ setOkB t (splitPath p) = true) := by
  intro t p v
  by_cases hp : p = ""
  · constructor
    · simp [setValueAtPath, hp]
    · simp only [setValueAtPath, hp, if_pos]
      simp
  · constructor
    · rw [setValueAtPath, if_neg hp]
      simp only [iff_false_intro hp, iff_false]
      exact setKeys_not_emptyPath _ t v
    · rw [setValueAtPath, if_neg hp]
      rw [setKeys_ok_iff _ t v]
      simp [hp]

/-- C3: when both sides are present and their dynamic kinds differ, the
record-producing differ stores exactly one `modified` record carrying both
raw values at that path and does not recurse below it. -/
theorem c3_type_change_is_modified (path : String) (l r : Val)
    (diffs : List (String × DiffValue)) (hl : l ≠ .null) (hr : r ≠ .null)
    (hty : typeIndex l ≠ typeIndex r) :
    findDiffAux path l r diffs = alSet diffs path ⟨l, r, .modified⟩ := by
  rw [findDiffAux, diffOps.eq_def]
  rw [if_neg (by exact fun hc => hl hc.1), if_neg hl, if_neg hr, if_pos hty]
  rfl

theorem c3_witness :
    (Val.int 1 ≠ Val.null) ∧ (Val.str "x" ≠ Val.null) ∧
      typeIndex (Val.int 1) ≠ typeIndex (Val.str "x") ∧
      findDiffAux "a" (.int 1) (.str "x") [] = [("a", ⟨.int 1, .str "x", .modified⟩)] :=
  ⟨by decide, by decide, by decide, by
    rw [c3_type_change_is_modified "a" (.int 1) (.str "x") [] (by decide) (by decide) (by decide)]
    rfl⟩

/-- C8: the sequence-index path rendering bug. The spec requires the
decimal rendering (`items[12]`), but extractPaths builds the index segment
as `string(rune(i+'0'))`, a single character of code `i + 48`; at index 12
that character is the one the string "a[<]" shows, and "a[12]" is never
produced. -/
theorem c8_index_rendering_evaluated :
    ("a[<]" ∈ extractPaths "" (.map [("a", Val.arr (List.replicate 13 (Val.int 0)))])) ∧
      ("a[12]" ∉ extractPaths "" (.map [("a", Val.arr (List.replicate 13 (Val.int 0)))])) := by
  constructor
  · decide
  · decide

theorem marker_append_ne (s : String) : "helmhound-test-" ++ s ≠ s := by
  intro h
  have h2 : ("helmhound-test-" ++ s).data = s.data := by rw [h]
  rw [String.data_append] at h2
  have h3 := congrArg List.length h2
  rw [List.length_append] at h3
  have h4 : ("helmhound-test-" : String).data.length = 15 := by decide
  omega

theorem alSet_ne_of_lookup_ne {α : Type} {m : List (String × α)} {k : String} {v : α}
    (h : alLookup m k ≠ some v) : alSet m k v ≠ m := by
  intro he
  exact h (he ▸ alLookup_alSet_self m k v)

/-- Success and effectiveness of the `switch valueType` perturbation: when
the requested type is the one classified for the current value and is
supported, the new value exists and differs from the current one (for the
map case, provided the sentinel binding is not already present). -/
theorem computeNewValue_ok_ne (cur : Val)
    (hty : determineValueType cur ≠ .unknown)
    (hmap : ∀ m2, cur = .map m2 →
      alLookup m2 "helmhound-test-key" ≠ some (.str "helmhound-test-value")) :
    ∃ nv, computeNewValue cur (determineValueType cur) = .ok nv ∧ nv ≠ cur := by
  cases cur with
  | str s =>
    refine ⟨.str ("helmhound-test-" ++ s), rfl, ?_⟩
    intro h
    injection h with h2
    exact marker_append_ne s h2
  | int n =>
    refine ⟨.int (n + 1), rfl, ?_⟩
    intro h
    injection h with h2
    omega
  | float q =>
    exact ⟨.int (goFloatTrunc q + 1), rfl, by intro h; cases h⟩
  | bool b =>
    refine ⟨.bool (!b), rfl, ?_⟩
    intro h
    injection h with h2
    cases b <;> simp at h2
  | null => exact absurd rfl hty
  | arr xs =>
    refine ⟨Val.arr (xs ++ [Val.str "helmhound-test-element"]), rfl, ?_⟩
    intro h
    injection h with h2
    have h3 := congrArg List.length h2
    rw [List.length_append] at h3
    simp at h3
  | map m =>
    refine ⟨.map (alSet (copyMap m) "helmhound-test-key" (.str "helmhound-test-value")),
      rfl, ?_⟩
    rw [copyMap_id]
    intro h
    injection h with h2
    exact alSet_ne_of_lookup_ne (hmap m rfl) h2

/-- C4 counterexample: the empty path. `Get(t, "")` succeeds (it returns
the whole tree, classified `map`), but `Mutate(t, "", map)` fails, because
the final write goes through `setValueAtPath`, which rejects the empty
path — contradicting "Mutate succeeds at every path where Get succeeds". -/
theorem c4_counterexample :
    getValueAtPath (.map ([] : List (String × Val))) "" = .ok (.map []) ∧
      determineValueType (.map ([] : List (String × Val))) = .map ∧
      modifyValueAtPath [] "" .map = .error (.setFailed .emptyPath) :=
  ⟨rfl, rfl, rfl⟩

/-- C4 (amended): for every path that splits into at least one segment and
at which `Get` succeeds, if the classified type of the current value is
supported (not `unknown`) and — in the map case — the value does not
already contain the sentinel binding, then `Mutate` succeeds and the value
read back at that path differs from the original value. -/
theorem c4_amended_mutate_changes_value (t : List (String × Val)) (p : String) (cur : Val)
    (hget : getValueAtPath (.map t) p = .ok cur)
    (hp : splitPath p ≠ [])
    (hty : determineValueType cur ≠ .unknown)
    (hmap : ∀ m2, cur = .map m2 →
      alLookup m2 "helmhound-test-key" ≠ some (.str "helmhound-test-value")) :
    ∃ t2 nv, modifyValueAtPath t p (determineValueType cur) = .ok t2 ∧
      getValueAtPath (.map t2) p = .ok nv ∧ nv ≠ cur := by
  have hpne : p ≠ "" := by
    intro h
    rw [h] at hp
    exact hp rfl
  have hgk : getKeys (.map t) (splitPath p) = .ok cur := by
    rw [getValueAtPath, if_neg hpne] at hget
    exact hget
  obtain ⟨nv, hnv, hne⟩ := computeNewValue_ok_ne cur hty hmap
  obtain ⟨t2, ht2⟩ := getKeys_set_ok (splitPath p) t cur nv hgk hp
  refine ⟨t2, nv, ?_, ?_, hne⟩
  · simp only [modifyValueAtPath, copyMap_id, hget, hnv, setValueAtPath, if_neg hpne, ht2]
  · rw [getValueAtPath, if_neg hpne]
    exact setKeys_get _ _ _ _ ht2

theorem c4_witness :
    ∃ t2 nv, modifyValueAtPath [("a", Val.int 1)] "a" (determineValueType (Val.int 1)) = .ok t2 ∧
      getValueAtPath (.map t2) "a" = .ok nv ∧ nv ≠ Val.int 1 :=
  c4_amended_mutate_changes_value [("a", Val.int 1)] "a" (Val.int 1) rfl (by decide)
    (by decide) (fun m2 h => nomatch h)

/- Go maps have unique keys; `uniqKeysB` states that invariant for every
mapping node of a decoded tree (association lists with duplicate keys do
not correspond to any Go value). -/
mutual
def uniqKeysB : Val → Bool
  | .map m => decide ((m.map Prod.fst).Nodup) && uniqEntriesB m
  | .arr xs => uniqElemsB xs
  | _ => true

def uniqEntriesB : List (String × Val) → Bool
  | [] => true
  | (_, v) :: rest => uniqKeysB v && uniqEntriesB rest

def uniqElemsB : List Val → Bool
  | [] => true
  | x :: xs => uniqKeysB x && uniqElemsB xs
end

theorem uniqEntriesB_mem : ∀ {m : List (String × Val)}, uniqEntriesB m = true →
    ∀ kv ∈ m, uniqKeysB kv.2 = true := by
  intro m
  induction m with
  | nil => intro _ kv hkv; simp at hkv
  | cons hd tl ih =>
    obtain ⟨k, v⟩ := hd
    intro h kv hkv
    simp only [uniqEntriesB, Bool.and_eq_true] at h
    rcases List.mem_cons.mp hkv with heq | htl
    · cases heq; exact h.1
    · exact ih h.2 kv htl

theorem uniqElemsB_mem : ∀ {xs : List Val}, uniqElemsB xs = true →
    ∀ x ∈ xs, uniqKeysB x = true := by
  intro xs
  induction xs with
  | nil => intro _ x hx; simp at hx
  | cons hd tl ih =>
    intro h x hx
    simp only [uniqElemsB, Bool.and_eq_true] at h
    rcases List.mem_cons.mp hx with heq | htl
    · cases heq; exact h.1
    · exact ih h.2 x htl

/- A tree is NaN-free when no float in it is NaN. On such trees the scalar
`reflect.DeepEqual` is reflexive; a NaN anywhere in the tree makes the
differs report the path holding it even when comparing a tree to itself. -/
mutual
def nanFreeB : Val → Bool
  | .float f => ! f.isNan
  | .arr xs => nanFreeElemsB xs
  | .map m => nanFreeEntriesB m
  | _ => true

def nanFreeEntriesB : List (String × Val) → Bool
  | [] => true
  | (_, v) :: rest => nanFreeB v && nanFreeEntriesB rest

def nanFreeElemsB : List Val → Bool
  | [] => true
  | x :: xs => nanFreeB x && nanFreeElemsB xs
end

theorem nanFreeEntriesB_mem : ∀ {m : List (String × Val)}, nanFreeEntriesB m = true →
    ∀ kv ∈ m, nanFreeB kv.2 = true := by
  intro m
  induction m with
  | nil => intro _ kv hkv; simp at hkv
  | cons hd tl ih =>
    intro h kv hkv
    obtain ⟨k, v⟩ := hd
    simp only [nanFreeEntriesB, Bool.and_eq_true] at h
    rcases List.mem_cons.mp hkv with heq | htl
    · cases heq; exact h.1
    · exact ih h.2 kv htl

theorem nanFreeElemsB_mem : ∀ {xs : List Val}, nanFreeElemsB xs = true →
    ∀ x ∈ xs, nanFreeB x = true := by
  intro xs
  induction xs with
  | nil => intro _ x hx; simp at hx
  | cons hd tl ih =>
    intro h x hx
    simp only [nanFreeElemsB, Bool.and_eq_true] at h
    rcases List.mem_cons.mp hx with heq | htl
    · cases heq; exact h.1
    · exact ih h.2 x htl

theorem compareMapRight_self_sub (m : List (String × Val)) :
    ∀ (msub : List (String × Val)) (path : String), (∀ kv ∈ msub, kv ∈ m) →
      compareMapRight path m msub = [] := by
  intro msub
  induction msub with
  | nil => intro path _; rfl
  | cons hd tl ih =>
    obtain ⟨k, v⟩ := hd
    intro path hsub
    simp only [compareMapRight]
    rw [if_pos (alLookup_isSome_of_mem (hsub (k, v) (by simp)))]
    simpa using ih path (fun kv hkv => hsub kv (by simp [hkv]))

theorem compareMapLeft_self_sub (m : List (String × Val))
    (hnd : (m.map Prod.fst).Nodup) :
    ∀ (msub : List (String × Val)) (path : String), (∀ kv ∈ msub, kv ∈ m) →
      (∀ kv ∈ msub, ∀ p2 : String, compareValues p2 kv.2 kv.2 = []) →
      compareMapLeft path m msub = [] := by
  intro msub
  induction msub with
  | nil => intro path _ _; rw [compareMapLeft]
  | cons hd tl ih =>
    obtain ⟨k, v⟩ := hd
    intro path hsub hself
    have hlk : alLookup m k = some v := alLookup_of_mem_nodup (hsub (k, v) (by simp)) hnd
    have hrec := ih path (fun kv hkv => hsub kv (by simp [hkv]))
      (fun kv hkv => hself kv (by simp [hkv]))
    rw [compareMapLeft]
    split
    · rename_i rv heq
      rw [hlk] at heq
      injection heq with h2
      subst h2
      rw [hself (k, v) (by simp) (buildPath path k)]
      simpa using hrec
    · rename_i heq
      rw [hlk] at heq
      cases heq

theorem compareSliceAux_self (xs : List Val)
    (hself : ∀ x ∈ xs, ∀ p2 : String, compareValues p2 x x = []) :
    ∀ (path : String) (i : Nat), compareSliceAux path i xs xs = [] := by
  induction xs with
  | nil => intro path i; rw [compareSliceAux]
  | cons x tl ih =>
    intro path i
    rw [compareSliceAux]
    rw [hself x (by simp) (buildArrayPath path i)]
    simpa using ih (fun y hy => hself y (by simp [hy])) path (i + 1)

theorem compareValues_self : ∀ v : Val, uniqKeysB v = true → nanFreeB v = true →
    ∀ path : String, compareValues path v v = [] := by
  intro v
  induction v using val_ind with
  | hstr s => intro _ _ path; rw [compareValues.eq_def]; simp [typeIndex, deepEqualScalarB]
  | hint n => intro _ _ path; rw [compareValues.eq_def]; simp [typeIndex, deepEqualScalarB]
  | hfloat q =>
    intro _ hn path
    rw [compareValues.eq_def]
    cases q with
    | finite x => simp [typeIndex, deepEqualScalarB, goFloatEqB]
    | inf b => simp [typeIndex, deepEqualScalarB, goFloatEqB]
    | nan => simp [nanFreeB, GoFloat.isNan] at hn
  | hbool b => intro _ _ path; rw [compareValues.eq_def]; simp [typeIndex, deepEqualScalarB]
  | hnull => intro _ _ path; rw [compareValues.eq_def]; simp
  | harr xs ih =>
    intro hu hn path
    rw [compareValues.eq_def]
    simp only [uniqKeysB] at hu
    simp only [nanFreeB] at hn
    have hself : ∀ x ∈ xs, ∀ p2 : String, compareValues p2 x x = [] :=
      fun x hx => ih x hx (uniqElemsB_mem hu x hx) (nanFreeElemsB_mem hn x hx)
    simp [compareSliceAux_self xs hself path 0]
  | hmap m ih =>
    intro hu hn path
    rw [compareValues.eq_def]
    simp only [uniqKeysB, Bool.and_eq_true] at hu
    simp only [nanFreeB] at hn
    have hnd : (m.map Prod.fst).Nodup := of_decide_eq_true hu.1
    have hself : ∀ kv ∈ m, ∀ p2 : String, compareValues p2 kv.2 kv.2 = [] :=
      fun kv hkv => ih kv hkv (uniqEntriesB_mem hu.2 kv hkv) (nanFreeEntriesB_mem hn kv hkv)
    simp [compareMapLeft_self_sub m hnd m path (fun kv hkv => hkv) hself,
      compareMapRight_self_sub m m path (fun kv hkv => hkv)]

theorem diffOpsMapRight_self_sub (m : List (String × Val)) :
    ∀ (msub : List (String × Val)) (path : String),
      (∀ kv ∈ msub, kv ∈ m) → diffOpsMapRight path m msub = [] := by
  intro msub
  induction msub with
  | nil => intro path _; rfl
  | cons hd tl ih =>
    obtain ⟨k, v⟩ := hd
    intro path hsub
    simp only [diffOpsMapRight]
    rw [if_pos (alLookup_isSome_of_mem (hsub (k, v) (by simp)))]
    simpa using ih path (fun kv hkv => hsub kv (by simp [hkv]))

theorem diffOpsMapLeft_self_sub (m : List (String × Val))
    (hnd : (m.map Prod.fst).Nodup) :
    ∀ (msub : List (String × Val)) (path : String),
      (∀ kv ∈ msub, kv ∈ m) →
      (∀ kv ∈ msub, ∀ p2 : String, diffOps p2 kv.2 kv.2 = []) →
      diffOpsMapLeft path m msub = [] := by
  intro msub
  induction msub with
  | nil => intro path _ _; rw [diffOpsMapLeft]
  | cons hd tl ih =>
    obtain ⟨k, v⟩ := hd
    intro path hsub hself
    have hlk : alLookup m k = some v := alLookup_of_mem_nodup (hsub (k, v) (by simp)) hnd
    have hrec := ih path (fun kv hkv => hsub kv (by simp [hkv]))
      (fun kv hkv => hself kv (by simp [hkv]))
    rw [diffOpsMapLeft]
    split
    · rename_i rv heq
      rw [hlk] at heq
      injection heq with h2
      subst h2
      rw [hself (k, v) (by simp) (buildPath path k)]
      simpa using hrec
    · rename_i heq
      rw [hlk] at heq
      cases heq

theorem diffOpsSliceAux_self (xs : List Val)
    (hself : ∀ x ∈ xs, ∀ p2 : String, diffOps p2 x x = []) :
    ∀ (path : String) (i : Nat), diffOpsSliceAux path i xs xs = [] := by
  induction xs with
  | nil => intro path i; rw [diffOpsSliceAux]
  | cons x tl ih =>
    intro path i
    rw [diffOpsSliceAux]
    rw [hself x (by simp) (buildArrayPath path i)]
    simpa using ih (fun y hy => hself y (by simp [hy])) path (i + 1)

theorem diffOps_self : ∀ v : Val, uniqKeysB v = true → nanFreeB v = true →
    ∀ path : String, diffOps path v v = [] := by
  intro v
  induction v using val_ind with
  | hstr s => intro _ _ path; rw [diffOps.eq_def]; simp [typeIndex, deepEqualScalarB]
  | hint n => intro _ _ path; rw [diffOps.eq_def]; simp [typeIndex, deepEqualScalarB]
  | hfloat q =>
    intro _ hn path
    rw [diffOps.eq_def]
    cases q with
    | finite x => simp [typeIndex, deepEqualScalarB, goFloatEqB]
    | inf b => simp [typeIndex, deepEqualScalarB, goFloatEqB]
    | nan => simp [nanFreeB, GoFloat.isNan] at hn
  | hbool b => intro _ _ path; rw [diffOps.eq_def]; simp [typeIndex, deepEqualScalarB]
  | hnull => intro _ _ path; rw [diffOps.eq_def]; simp
  | harr xs ih =>
    intro hu hn path
    rw [diffOps.eq_def]
    simp only [uniqKeysB] at hu
    simp only [nanFreeB] at hn
    have hself : ∀ x ∈ xs, ∀ p2 : String, diffOps p2 x x = [] :=
      fun x hx => ih x hx (uniqElemsB_mem hu x hx) (nanFreeElemsB_mem hn x hx)
    simp [diffOpsSliceAux_self xs hself path 0]
  | hmap m ih =>
    intro hu hn path
    rw [diffOps.eq_def]
    simp only [uniqKeysB, Bool.and_eq_true] at hu
    simp only [nanFreeB] at hn
    have hnd : (m.map Prod.fst).Nodup := of_decide_eq_true hu.1
    have hself : ∀ kv ∈ m, ∀ p2 : String, diffOps p2 kv.2 kv.2 = [] :=
      fun kv hkv => ih kv hkv (uniqEntriesB_mem hu.2 kv hkv) (nanFreeEntriesB_mem hn kv hkv)
    simp [diffOpsMapLeft_self_sub m hnd m path (fun kv hkv => hkv) hself,
      diffOpsMapRight_self_sub m m path (fun kv hkv => hkv)]

theorem findDiffAux_self (v : Val) (hu : uniqKeysB v = true) (hn : nanFreeB v = true)
    (path : String) (d : List (String × DiffValue)) : findDiffAux path v v d = d := by
  rw [findDiffAux, diffOps_self v hu hn path]
  rfl

theorem c2_counterexample :
    CompareYAML [("a", Val.float GoFloat.nan)] [("a", Val.float GoFloat.nan)] = ["a"] ∧
      FindDifferencesWithValues [("a", Val.float GoFloat.nan)] [("a", Val.float GoFloat.nan)] =
        [("a", ⟨Val.float GoFloat.nan, Val.float GoFloat.nan, DiffType.modified⟩)] := by
  constructor
  · simp [CompareYAML, compareValues, compareMapLeft, compareMapRight, alLookup, typeIndex,
      buildPath, deepEqualScalarB, goFloatEqB]
  · simp [FindDifferencesWithValues, findDiffAux, diffOps, diffOpsMapLeft, diffOpsMapRight,
      alLookup, typeIndex, buildPath, deepEqualScalarB, goFloatEqB, alSet]

/-- C2 (amended): comparing a tree against itself yields the empty diff
set — for the paths-only differ and for the record-producing differ — for
every tree that contains no NaN float. The restriction is necessary: the
scalar comparison is `reflect.DeepEqual`, which is false on NaN even
against itself, so a tree holding NaN reports the path of the NaN when
compared with itself (see the counterexample above). -/
theorem c2_amended_compare_self_empty (l : List (String × Val))
    (hu : uniqKeysB (.map l) = true) (hn : nanFreeB (.map l) = true) :
    CompareYAML l l = [] ∧ FindDifferencesWithValues l l = [] :=
  ⟨compareValues_self (.map l) hu hn "", findDiffAux_self (.map l) hu hn "" []⟩

theorem c2_witness :
    uniqKeysB (.map [("a", Val.int 1), ("b", Val.map [("c", Val.str "x")]),
      ("d", Val.arr [Val.int 2, Val.null])]) = true ∧
    nanFreeB (.map [("a", Val.int 1), ("b", Val.map [("c", Val.str "x")]),
      ("d", Val.arr [Val.int 2, Val.null])]) = true ∧
    CompareYAML [("a", Val.int 1), ("b", Val.map [("c", Val.str "x")]),
      ("d", Val.arr [Val.int 2, Val.null])]
      [("a", Val.int 1), ("b", Val.map [("c", Val.str "x")]),
      ("d", Val.arr [Val.int 2, Val.null])] = [] ∧
    FindDifferencesWithValues [("a", Val.int 1), ("b", Val.map [("c", Val.str "x")]),
      ("d", Val.arr [Val.int 2, Val.null])]
      [("a", Val.int 1), ("b", Val.map [("c", Val.str "x")]),
      ("d", Val.arr [Val.int 2, Val.null])] = [] := by
  have h := c2_amended_compare_self_empty
    [("a", Val.int 1), ("b", Val.map [("c", Val.str "x")]),
      ("d", Val.arr [Val.int 2, Val.null])] (by decide) (by decide)
  exact ⟨by decide, by decide, h.1, h.2⟩

theorem mem_alSet_keys {α : Type} (d : List (String × α)) (k : String) (v : α) (s : String) :
    s ∈ (alSet d k v).map Prod.fst ↔ s ∈ d.map Prod.fst ∨ s = k := by
  induction d with
  | nil => simp [alSet]
  | cons hd tl ih =>
    obtain ⟨k2, w⟩ := hd
    by_cases hk : k2 = k
    · subst hk
      simp [alSet]
      tauto
    · simp [alSet, hk, ih]
      tauto

theorem foldl_alSet_keys {α : Type} (ops : List (String × α)) :
    ∀ (d : List (String × α)) (s : String),
      (s ∈ (ops.foldl (fun d2 pr => alSet d2 pr.1 pr.2) d).map Prod.fst ↔
        s ∈ d.map Prod.fst ∨ s ∈ ops.map Prod.fst) := by
  induction ops with
  | nil => simp
  | cons hd tl ih =>
    obtain ⟨k, v⟩ := hd
    intro d s
    simp only [List.foldl_cons, List.map_cons, List.mem_cons]
    rw [ih (alSet d k v) s, mem_alSet_keys]
    tauto

theorem diffOpsMapRight_fst (bp : String) (lm : List (String × Val)) :
    ∀ rm : List (String × Val),
      (diffOpsMapRight bp lm rm).map Prod.fst = compareMapRight bp lm rm := by
  intro rm
  induction rm with
  | nil => rfl
  | cons hd rest ih =>
    obtain ⟨k, rv⟩ := hd
    simp only [diffOpsMapRight, compareMapRight]
    by_cases h : (alLookup lm k).isSome
    · simp [h, ih]
    · simp [h, ih]

theorem diffOpsMapLeft_fst (bp : String) (rm : List (String × Val)) :
    ∀ lm : List (String × Val),
      (∀ kv ∈ lm, ∀ (r2 : Val) (p2 : String),
        (diffOps p2 kv.2 r2).map Prod.fst = compareValues p2 kv.2 r2) →
      (diffOpsMapLeft bp rm lm).map Prod.fst = compareMapLeft bp rm lm := by
  intro lm
  induction lm with
  | nil =>
    intro _
    rw [diffOpsMapLeft, compareMapLeft]
    rfl
  | cons hd tl ih =>
    obtain ⟨k, v⟩ := hd
    intro hent
    rw [diffOpsMapLeft, compareMapLeft, List.map_append]
    congr 1
    · split
      · rename_i rv heq
        exact hent (k, v) (by simp) rv (buildPath bp k)
      · rfl
    · exact ih (fun kv hkv => hent kv (by simp [hkv]))

theorem diffOpsSliceAux_fst (bp : String) :
    ∀ lx : List Val,
      (∀ x ∈ lx, ∀ (r2 : Val) (p2 : String),
        (diffOps p2 x r2).map Prod.fst = compareValues p2 x r2) →
      ∀ (rx : List Val) (i : Nat),
        (diffOpsSliceAux bp i lx rx).map Prod.fst = compareSliceAux bp i lx rx := by
  intro lx
  induction lx with
  | nil =>
    intro _ rx
    induction rx with
    | nil => intro i; rw [diffOpsSliceAux, compareSliceAux]; rfl
    | cons rv rs ihr =>
      intro i
      rw [diffOpsSliceAux, compareSliceAux]
      simp only [List.map_cons]
      rw [ihr (i + 1)]
  | cons lv ls ih =>
    intro hent rx i
    cases rx with
    | nil =>
      rw [diffOpsSliceAux, compareSliceAux]
      simp only [List.map_cons]
      rw [ih (fun y hy => hent y (by simp [hy])) [] (i + 1)]
    | cons rv rs =>
      rw [diffOpsSliceAux, compareSliceAux, List.map_append]
      rw [hent lv (by simp) rv (buildArrayPath bp i)]
      rw [ih (fun y hy => hent y (by simp [hy])) rs (i + 1)]

theorem diffOps_fst : ∀ (l : Val), ∀ (r : Val) (path : String),
    (diffOps path l r).map Prod.fst = compareValues path l r := by
  intro l
  induction l using val_ind with
  | hstr s =>
    intro r path
    rw [diffOps.eq_def, compareValues.eq_def]
    cases r <;> simp [typeIndex] <;> split_ifs <;> simp_all
  | hint n =>
    intro r path
    rw [diffOps.eq_def, compareValues.eq_def]
    cases r <;> simp [typeIndex] <;> split_ifs <;> simp_all
  | hfloat q =>
    intro r path
    rw [diffOps.eq_def, compareValues.eq_def]
    cases r <;> simp [typeIndex] <;> split_ifs <;> simp_all
  | hbool b =>
    intro r path
    rw [diffOps.eq_def, compareValues.eq_def]
    cases r <;> simp [typeIndex] <;> split_ifs <;> simp_all
  | hnull =>
    intro r path
    rw [diffOps.eq_def, compareValues.eq_def]
    cases r <;> simp [typeIndex]
  | harr xs ih =>
    intro r path
    rw [diffOps.eq_def, compareValues.eq_def]
    cases r <;> simp [typeIndex]
    case arr rx =>
      exact diffOpsSliceAux_fst path xs
        (fun x hx => ih x hx) rx 0
  | hmap m ih =>
    intro r path
    rw [diffOps.eq_def, compareValues.eq_def]
    cases r <;> simp [typeIndex]
    case map rm =>
      rw [diffOpsMapLeft_fst path rm m (fun kv hkv => ih kv hkv),
        diffOpsMapRight_fst path m rm]

/-- C10: the paths-only differ (`CompareYAML`, which also drives the
grouped variants) and the record-producing differ agree on exactly which
paths differ: the set of reported paths equals the set of record keys. -/
theorem c10_differs_agree_on_paths (left right : List (String × Val)) (s : String) :
    s ∈ CompareYAML left right ↔ s ∈ (FindDifferencesWithValues left right).map Prod.fst := by
  rw [CompareYAML, FindDifferencesWithValues, findDiffAux]
  rw [foldl_alSet_keys (diffOps "" (.map left) (.map right)) [] s]
  rw [diffOps_fst (.map left) (.map right) ""]
  simp

/-- Wellformedness of one Go map key for the dot-grammar: non-empty and
free of '.' (so `splitPath` can reassemble the extracted path). -/
def keyOkB (k : String) : Bool := decide (k.data ≠ [] ∧ ('.') ∉ k.data)

/- Key discipline under which the dot-only path grammar of `getValueAtPath`
is injective: every mapping in the tree has pairwise distinct keys, all
non-empty and dot-free. -/
mutual
def goodKeysB : Val → Bool
  | .map m => decide ((m.map Prod.fst).Nodup) && goodEntriesB m
  | .arr xs => goodElemsB xs
  | _ => true

def goodEntriesB : List (String × Val) → Bool
  | [] => true
  | (k, v) :: rest => keyOkB k && goodKeysB v && goodEntriesB rest

def goodElemsB : List Val → Bool
  | [] => true
  | x :: xs => goodKeysB x && goodElemsB xs
end

theorem goodEntriesB_mem : ∀ {m : List (String × Val)}, goodEntriesB m = true →
    ∀ kv ∈ m, keyOkB kv.1 = true ∧ goodKeysB kv.2 = true := by
  intro m
  induction m with
  | nil => intro _ kv hkv; simp at hkv
  | cons hd tl ih =>
    obtain ⟨k, v⟩ := hd
    intro h kv hkv
    simp only [goodEntriesB, Bool.and_eq_true] at h
    rcases List.mem_cons.mp hkv with heq | htl
    · cases heq; exact ⟨h.1.1, h.1.2⟩
    · exact ih h.2 kv htl

/-- Textual join of key segments with '.', the shape of every path that
`extractPaths` emits through mappings only. -/
def joinKeys : List String → String
  | [] => ""
  | [k] => k
  | k :: rest => k ++ "." ++ joinKeys rest

/-- Join relative to a prefix, matching `fullPath` construction in
`extractPaths`. -/
def joinDot (pre : String) (ks : List String) : String :=
  if pre = "" then joinKeys ks else pre ++ "." ++ joinKeys ks

theorem splitPathAux_nonDot : ∀ (w : List Char), (∀ c ∈ w, c ≠ '.') →
    ∀ (cs cur : List Char), splitPathAux (w ++ cs) cur = splitPathAux cs (cur ++ w) := by
  intro w
  induction w with
  | nil => intro _ cs cur; simp
  | cons c w2 ih =>
    intro hw cs cur
    have hc : c ≠ '.' := hw c (by simp)
    simp only [List.cons_append, splitPathAux, if_neg hc]
    have h2 := ih (fun d hd => hw d (by simp [hd])) cs (cur ++ [c])
    rw [List.append_assoc] at h2
    exact h2

theorem string_mk_data (s : String) : String.mk s.data = s := rfl

theorem string_ne_empty_of_data {s : String} (h : s.data ≠ []) : s ≠ "" := by
  intro he
  rw [he] at h
  exact h rfl

theorem splitPath_joinKeys : ∀ ks : List String,
    (∀ k ∈ ks, k.data ≠ [] ∧ ('.') ∉ k.data) → splitPath (joinKeys ks) = ks := by
  intro ks
  induction ks with
  | nil => intro _; rfl
  | cons k rest ih =>
    intro hks
    have hk := hks k (by simp)
    have hnd : ∀ c ∈ k.data, c ≠ '.' := fun c hc he => hk.2 (he ▸ hc)
    cases rest with
    | nil =>
      show splitPathAux (joinKeys [k]).data [] = [k]
      have : (joinKeys [k]).data = k.data ++ [] := by simp [joinKeys]
      rw [this, splitPathAux_nonDot k.data hnd [] []]
      simp only [splitPathAux, List.nil_append]
      rw [if_neg hk.1]
    | cons k2 rest2 =>
      show splitPathAux (joinKeys (k :: k2 :: rest2)).data [] = k :: k2 :: rest2
      have hdata : (joinKeys (k :: k2 :: rest2)).data =
          k.data ++ ('.' :: (joinKeys (k2 :: rest2)).data) := by
        show (k ++ "." ++ joinKeys (k2 :: rest2)).data = _
        rw [String.data_append, String.data_append]
        simp
      rw [hdata, splitPathAux_nonDot k.data hnd _ []]
      simp only [List.nil_append, splitPathAux, if_true]
      rw [if_neg hk.1]
      have hih := ih (fun k3 hk3 => hks k3 (by simp [hk3]))
      rw [show splitPath (joinKeys (k2 :: rest2)) =
        splitPathAux (joinKeys (k2 :: rest2)).data [] from rfl] at hih
      rw [hih, string_mk_data]

theorem extractPathsEntries_mem_cases : ∀ (m : List (String × Val)) (pre p : String),
    p ∈ extractPathsEntries pre m → ∃ k v, (k, v) ∈ m ∧
      (p = (if pre = "" then k else pre ++ "." ++ k) ∨
        p ∈ extractPaths (if pre = "" then k else pre ++ "." ++ k) v) := by
  intro m
  induction m with
  | nil => intro pre p h; simp [extractPathsEntries] at h
  | cons hd tl ih =>
    obtain ⟨k, v⟩ := hd
    intro pre p h
    simp only [extractPathsEntries, List.mem_cons, List.mem_append] at h
    rcases h with heq | hin | htl
    · exact ⟨k, v, by simp, Or.inl heq⟩
    · exact ⟨k, v, by simp, Or.inr hin⟩
    · obtain ⟨k2, v2, hmem, hcase⟩ := ih pre p htl
      exact ⟨k2, v2, by simp [hmem], hcase⟩

theorem extract_mem_append : ∀ (t : Val) (pre p : String),
    p ∈ extractPaths pre t → ∃ suf : String, p = pre ++ suf := by
  intro t
  induction t using val_ind with
  | hstr s => intro pre p h; simp [extractPaths] at h
  | hint n => intro pre p h; simp [extractPaths] at h
  | hfloat q => intro pre p h; simp [extractPaths] at h
  | hbool b => intro pre p h; simp [extractPaths] at h
  | hnull => intro pre p h; simp [extractPaths] at h
  | harr xs ih =>
    intro pre p h
    simp only [extractPaths] at h
    have haux : ∀ (ys : List Val),
        (∀ y ∈ ys, ∀ pre2 p2 : String, p2 ∈ extractPaths pre2 y → ∃ suf, p2 = pre2 ++ suf) →
        ∀ (i : Nat) (pre2 p2 : String), p2 ∈ extractPathsElems pre2 i ys →
          ∃ suf : String, p2 = pre2 ++ suf := by
      intro ys
      induction ys with
      | nil => intro _ i pre2 p2 h2; simp [extractPathsElems] at h2
      | cons y ys2 ihy =>
        intro hmem i pre2 p2 h2
        simp only [extractPathsElems, List.mem_cons, List.mem_append] at h2
        rcases h2 with heq | hin | htl
        · exact ⟨"[" ++ String.mk [Char.ofNat (i + 48)] ++ "]", by
            rw [heq]; simp [String.append_assoc]⟩
        · obtain ⟨suf, hsuf⟩ := hmem y (by simp) _ p2 hin
          exact ⟨"[" ++ String.mk [Char.ofNat (i + 48)] ++ "]" ++ suf, by
            rw [hsuf]; simp [String.append_assoc]⟩
        · exact ihy (fun z hz => hmem z (by simp [hz])) (i + 1) pre2 p2 htl
    exact haux xs (fun y hy => ih y hy) 0 pre p h
  | hmap m ih =>
    intro pre p h
    simp only [extractPaths] at h
    obtain ⟨k, v, hmem, hcase⟩ := extractPathsEntries_mem_cases m pre p h
    by_cases hpre : pre = ""
    · exact ⟨p, by simp [hpre]⟩
    · rw [if_neg hpre] at hcase
      rcases hcase with heq | hin
      · exact ⟨"." ++ k, by rw [heq]; simp [String.append_assoc]⟩
      · obtain ⟨suf, hsuf⟩ := ih (k, v) hmem (pre ++ "." ++ k) p hin
        exact ⟨"." ++ k ++ suf, by
          rw [hsuf]; simp [String.append_assoc]⟩

theorem bracket_mem_indexPath (pre : String) (c : Char) :
    ('[') ∈ (pre ++ "[" ++ String.mk [c] ++ "]").data := by
  rw [String.data_append, String.data_append, String.data_append]
  simp

theorem extractPathsElems_bracket : ∀ (xs : List Val) (pre : String) (i : Nat) (p : String),
    p ∈ extractPathsElems pre i xs → ('[') ∈ p.data := by
  intro xs
  induction xs with
  | nil => intro pre i p h; simp [extractPathsElems] at h
  | cons x xs2 ih =>
    intro pre i p h
    simp only [extractPathsElems, List.mem_cons, List.mem_append] at h
    rcases h with heq | hin | htl
    · rw [heq]; exact bracket_mem_indexPath pre _
    · obtain ⟨suf, hsuf⟩ := extract_mem_append x _ p hin
      rw [hsuf, String.data_append]
      exact List.mem_append_left _ (bracket_mem_indexPath pre _)
    · exact ih pre (i + 1) p htl

theorem joinDot_cons (pre k : String) (ks : List String) (hks : ks ≠ [])
    (hk : k.data ≠ []) :
    joinDot (if pre = "" then k else pre ++ "." ++ k) ks = joinDot pre (k :: ks) := by
  obtain ⟨k2, rest, rfl⟩ : ∃ k2 rest, ks = k2 :: rest := by
    cases ks with
    | nil => exact absurd rfl hks
    | cons a b => exact ⟨a, b, rfl⟩
  have hkne : k ≠ "" := string_ne_empty_of_data hk
  by_cases hpre : pre = ""
  · rw [if_pos hpre, joinDot, if_neg hkne, joinDot, if_pos hpre]
    rfl
  · have h2 : pre ++ "." ++ k ≠ "" := by
      apply string_ne_empty_of_data
      rw [String.data_append]
      intro hx
      exact hk (List.append_eq_nil.mp hx).2
    rw [if_neg hpre, joinDot, if_neg h2, joinDot, if_neg hpre]
    show pre ++ "." ++ k ++ "." ++ joinKeys (k2 :: rest) = pre ++ "." ++ (k ++ "." ++ joinKeys (k2 :: rest))
    simp [String.append_assoc]

theorem extract_get_aux : ∀ (t : Val), goodKeysB t = true → ∀ (pre p : String),
    p ∈ extractPaths pre t → ('[') ∉ p.data →
    ∃ (ks : List String) (v : Val), ks ≠ [] ∧
      (∀ k ∈ ks, k.data ≠ [] ∧ ('.') ∉ k.data) ∧
      p = joinDot pre ks ∧ getKeys t ks = .ok v := by
  intro t
  induction t using val_ind with
  | hstr s => intro _ pre p h _; simp [extractPaths] at h
  | hint n => intro _ pre p h _; simp [extractPaths] at h
  | hfloat q => intro _ pre p h _; simp [extractPaths] at h
  | hbool b => intro _ pre p h _; simp [extractPaths] at h
  | hnull => intro _ pre p h _; simp [extractPaths] at h
  | harr xs ih =>
    intro _ pre p h hnb
    simp only [extractPaths] at h
    exact absurd (extractPathsElems_bracket xs pre 0 p h) hnb
  | hmap m ih =>
    intro hgood pre p h hnb
    simp only [extractPaths] at h
    simp only [goodKeysB, Bool.and_eq_true] at hgood
    have hnd : (m.map Prod.fst).Nodup := of_decide_eq_true hgood.1
    obtain ⟨k, v, hmem, hcase⟩ := extractPathsEntries_mem_cases m pre p h
    have hkv := goodEntriesB_mem hgood.2 (k, v) hmem
    have hkok : k.data ≠ [] ∧ ('.') ∉ k.data := by
      have := hkv.1
      simp only [keyOkB, decide_eq_true_eq] at this
      exact this
    have hlk : alLookup m k = some v := alLookup_of_mem_nodup hmem hnd
    rcases hcase with heq | hin
    · refine ⟨[k], v, by simp, ?_, ?_, ?_⟩
      · intro k2 hk2
        simp at hk2
        rw [hk2]
        exact hkok
      · rw [heq, joinDot]
        by_cases hpre : pre = ""
        · rw [if_pos hpre, if_pos hpre]; rfl
        · rw [if_neg hpre, if_neg hpre]; rfl
      · simp [getKeys, hlk]
    · obtain ⟨ks2, v2, hne2, hprops2, hjoin2, hget2⟩ :=
        ih (k, v) hmem hkv.2 (if pre = "" then k else pre ++ "." ++ k) p hin hnb
      refine ⟨k :: ks2, v2, by simp, ?_, ?_, ?_⟩
      · intro k2 hk2
        rcases List.mem_cons.mp hk2 with heq2 | htl2
        · rw [heq2]; exact hkok
        · exact hprops2 k2 htl2
      · rw [hjoin2, joinDot_cons pre k ks2 hne2 hkok.1]
      · simp only [getKeys, hlk]
        exact hget2

/-- C1 counterexample: a bracketed sequence-index path emitted by
`ExtractPaths` on which `Get` fails, because `Get` splits only on '.' and
treats "items[0]" as a single (absent) mapping key. -/
theorem c1_counterexample :
    "items[0]" ∈ extractPaths "" (.map [("items", Val.arr [Val.int 1])]) ∧
      getValueAtPath (.map [("items", Val.arr [Val.int 1])]) "items[0]" =
        .error (.keyNotFound "items[0]") :=
  ⟨by decide, rfl⟩

/-- C1 (amended): over trees whose mapping keys are pairwise distinct,
non-empty and dot-free, every path that `ExtractPaths` emits that contains
no bracketed sequence-index segment (no '[') is gettable: `Get` succeeds
on it. Paths that descend into sequences carry a '[' and are excluded —
`Get` cannot parse them (see the counterexample). -/
theorem c1_amended_extracted_paths_gettable (m : List (String × Val)) (p : String)
    (hgood : goodKeysB (.map m) = true)
    (hp : p ∈ extractPaths "" (.map m))
    (hnb : ('[') ∉ p.data) :
    ∃ v, getValueAtPath (.map m) p = .ok v := by
  obtain ⟨ks, v, hne, hprops, hjoin, hget⟩ := extract_get_aux (.map m) hgood "" p hp hnb
  by_cases hpe : p = ""
  · exact ⟨.map m, by rw [getValueAtPath, if_pos hpe]⟩
  · refine ⟨v, ?_⟩
    rw [getValueAtPath, if_neg hpe]
    have hsplit : splitPath p = ks := by
      rw [hjoin, joinDot, if_pos rfl]
      exact splitPath_joinKeys ks hprops
    rw [hsplit]
    exact hget

theorem c1_witness :
    ∃ v, getValueAtPath (.map [("a", Val.map [("b", Val.int 1)])]) "a.b" = .ok v :=
  c1_amended_extracted_paths_gettable [("a", Val.map [("b", Val.int 1)])] "a.b"
    (by decide) (by decide) (by decide)

theorem lookup_groupsAdd_self (gs : List (String × List ValueReference)) (f : String)
    (r : ValueReference) :
    alLookup (groupsAdd gs f r) f = some ((alLookup gs f).getD [] ++ [r]) := by
  induction gs with
  | nil => simp [groupsAdd, alLookup]
  | cons hd tl ih =>
    obtain ⟨k, rs⟩ := hd
    by_cases hk : k = f
    · subst hk
      simp [groupsAdd, alLookup]
    · simp [groupsAdd, alLookup, hk, ih]

theorem lookup_groupsAdd_ne (gs : List (String × List ValueReference)) (f f2 : String)
    (r : ValueReference) (h : f2 ≠ f) :
    alLookup (groupsAdd gs f r) f2 = alLookup gs f2 := by
  induction gs with
  | nil =>
    simp only [groupsAdd, alLookup]
    rw [if_neg (fun hh => h hh.symm)]
  | cons hd tl ih =>
    obtain ⟨k, rs⟩ := hd
    by_cases hk : k = f
    · subst hk
      simp only [groupsAdd, if_pos rfl, alLookup]
      rw [if_neg (fun hh => h hh.symm), if_neg (fun hh => h hh.symm)]
    · simp only [groupsAdd, if_neg hk, alLookup]
      by_cases hk2 : k = f2
      · rw [if_pos hk2, if_pos hk2]
      · rw [if_neg hk2, if_neg hk2]
        exact ih

theorem lookup_foldl_groupsAdd : ∀ (refs : List ValueReference)
    (gs : List (String × List ValueReference)) (f : String),
    alLookup (refs.foldl (fun gs2 r => groupsAdd gs2 r.file r) gs) f =
      (match alLookup gs f with
       | some rs => some (rs ++ refs.filter (fun r => r.file = f))
       | none =>
         if refs.filter (fun r => r.file = f) = [] then none
         else some (refs.filter (fun r => r.file = f))) := by
  intro refs
  induction refs with
  | nil =>
    intro gs f
    cases h : alLookup gs f <;> simp [h]
  | cons r rest ih =>
    intro gs f
    simp only [List.foldl_cons]
    rw [ih (groupsAdd gs r.file r) f]
    by_cases hf : r.file = f
    · subst hf
      rw [lookup_groupsAdd_self gs r.file r]
      simp only [List.filter_cons, decide_eq_true_eq, if_pos rfl]
      cases h : alLookup gs r.file with
      | none => simp [h]
      | some rs => simp [h]
    · rw [lookup_groupsAdd_ne gs r.file f r (fun hh => hf hh.symm)]
      have : (List.filter (fun r2 => decide (r2.file = f)) (r :: rest)) =
          List.filter (fun r2 => decide (r2.file = f)) rest := by
        simp [List.filter_cons, hf]
      rw [this]

theorem mem_keys_iff_lookup_isSome {α : Type} (gs : List (String × α)) (f : String) :
    f ∈ gs.map Prod.fst ↔ (alLookup gs f).isSome := by
  induction gs with
  | nil => simp [alLookup]
  | cons hd tl ih =>
    obtain ⟨k, v⟩ := hd
    by_cases hk : k = f
    · subst hk
      simp [alLookup]
    · simp only [List.map_cons, List.mem_cons, alLookup, if_neg hk, ih]
      constructor
      · rintro (heq | hm)
        · exact absurd heq.symm hk
        · exact hm
      · exact Or.inr

theorem lookup_buildFileGroups_of_key (refs : List ValueReference) (f : String)
    (hkey : f ∈ (buildFileGroups refs).map Prod.fst) :
    alLookup (buildFileGroups refs) f = some (refs.filter (fun r => r.file = f)) := by
  have hsome := (mem_keys_iff_lookup_isSome (buildFileGroups refs) f).mp hkey
  rw [buildFileGroups] at hsome ⊢
  rw [lookup_foldl_groupsAdd refs [] f] at hsome ⊢
  simp only [alLookup] at hsome ⊢
  by_cases hfil : refs.filter (fun r => r.file = f) = []
  · rw [if_pos hfil] at hsome
    simp at hsome
  · rw [if_neg hfil]

/-- C9 counterexample: `FormatValueReferences` iterates the Go
`fileGroups` map, whose iteration order is unspecified; the reversed key
order is a possible iteration order and produces the groups in the
opposite of first-seen order, so the output is not determined to be in
first-seen order. -/
theorem c9_counterexample :
    List.Perm ["b", "a"]
      ((buildFileGroups [⟨"a", 1, "x", "", ""⟩, ⟨"b", 1, "y", "", ""⟩]).map Prod.fst) ∧
    formatValueReferences ["b", "a"] [⟨"a", 1, "x", "", ""⟩, ⟨"b", 1, "y", "", ""⟩] ≠
      formatValueReferences ["a", "b"] [⟨"a", 1, "x", "", ""⟩, ⟨"b", 1, "y", "", ""⟩] :=
  ⟨by decide, by decide⟩

/-- C9 (amended): for every iteration order of the file-groups map (any
permutation of its key set), the output is one group per distinct file in
that (unspecified) order, each group being its header line followed by one
line per reference of that file in input order; first-seen group order is
not guaranteed. -/
theorem c9_amended_grouping (refs : List ValueReference) (order : List String)
    (hperm : order.Perm ((buildFileGroups refs).map Prod.fst))
    (hne : refs ≠ []) :
    formatValueReferences order refs =
      String.join (order.map (fun f => formatGroup f (refs.filter (fun r => r.file = f)))) := by
  rw [formatValueReferences]
  rw [if_neg (by simpa using hne)]
  apply congrArg String.join
  apply List.map_congr_left
  intro f hf
  have hkey : f ∈ (buildFileGroups refs).map Prod.fst := hperm.mem_iff.mp hf
  rw [lookup_buildFileGroups_of_key refs f hkey]

theorem c9_witness :
    formatValueReferences ["b", "a"] [⟨"a", 1, "x", "", ""⟩, ⟨"b", 1, "y", "", ""⟩] =
      String.join (["b", "a"].map (fun f => formatGroup f
        (([⟨"a", 1, "x", "", ""⟩, ⟨"b", 1, "y", "", ""⟩] : List ValueReference).filter
          (fun r => r.file = f)))) :=
  c9_amended_grouping [⟨"a", 1, "x", "", ""⟩, ⟨"b", 1, "y", "", ""⟩] ["b", "a"]
    (by decide) (by decide)

theorem hval_sizeOf_of_mem {x : HVal} {xs : List HVal} (h : x ∈ xs) : sizeOf x < sizeOf xs :=
  List.sizeOf_lt_of_mem h

/-- Structural induction principle for `HVal`. -/
theorem hval_ind {P : HVal → Prop}
    (hstr : ∀ s, P (.str s)) (hint : ∀ n, P (.int n)) (hfloat : ∀ q, P (.float q))
    (hbool : ∀ b, P (.bool b)) (hnull : P .null)
    (harr : ∀ xs, (∀ x ∈ xs, P x) → P (.arr xs))
    (href : ∀ a, P (.ref a)) : ∀ v, P v
  | .str s => hstr s
  | .int n => hint n
  | .float q => hfloat q
  | .bool b => hbool b
  | .null => hnull
  | .arr xs => harr xs (fun x hx =>
      have : sizeOf x < sizeOf (HVal.arr xs) := by
        have := hval_sizeOf_of_mem hx; simp; omega
      hval_ind hstr hint hfloat hbool hnull harr href x)
  | .ref a => href a
termination_by v => sizeOf v

/- All heap references inside a value (also through slices) point at or
above address `n`. -/
mutual
def refsGE (n : Nat) : HVal → Prop
  | .ref a => n ≤ a
  | .arr xs => refsGEList n xs
  | _ => True

def refsGEList (n : Nat) : List HVal → Prop
  | [] => True
  | x :: xs => refsGE n x ∧ refsGEList n xs
end

/-- All references inside a map object point at or above `n`. -/
def refsGEObj (n : Nat) : HObj → Prop
  | [] => True
  | (_, v) :: rest => refsGE n v ∧ refsGEObj n rest

/-- Every object stored at an address `≥ n` only references addresses `≥ n`:
the fresh region of the heap is closed under references. -/
def freshRefs (n : Nat) (h : Heap) : Prop :=
  ∀ a, n ≤ a → ∀ obj, h.get? a = some obj → refsGEObj n obj

theorem refsGE_mono {m n : Nat} (hmn : m ≤ n) : ∀ v : HVal, refsGE n v → refsGE m v := by
  intro v
  induction v using hval_ind with
  | hstr s => intro _; trivial
  | hint k => intro _; trivial
  | hfloat q => intro _; trivial
  | hbool b => intro _; trivial
  | hnull => intro _; trivial
  | href a => intro hv; exact le_trans hmn hv
  | harr xs ih =>
    intro hv
    simp only [refsGE] at hv ⊢
    induction xs with
    | nil => trivial
    | cons x rest ihl =>
      simp only [refsGEList] at hv ⊢
      exact ⟨ih x (by simp) hv.1, ihl (fun y hy => ih y (by simp [hy])) hv.2⟩

theorem refsGEObj_mono {m n : Nat} (hmn : m ≤ n) :
    ∀ obj : HObj, refsGEObj n obj → refsGEObj m obj := by
  intro obj
  induction obj with
  | nil => intro _; trivial
  | cons hd tl ih =>
    obtain ⟨k, v⟩ := hd
    intro hv
    simp only [refsGEObj] at hv ⊢
    exact ⟨refsGE_mono hmn v hv.1, ih hv.2⟩

theorem refsGEList_append {n : Nat} : ∀ xs ys : List HVal,
    refsGEList n xs → refsGEList n ys → refsGEList n (xs ++ ys) := by
  intro xs ys hxs hys
  induction xs with
  | nil => simpa using hys
  | cons x rest ih =>
    simp only [refsGEList, List.cons_append] at hxs ⊢
    exact ⟨hxs.1, ih hxs.2⟩

theorem refsGE_alLookup {n : Nat} : ∀ (obj : HObj) (k : String) (v : HVal),
    refsGEObj n obj → alLookup obj k = some v → refsGE n v := by
  intro obj
  induction obj with
  | nil => intro k v _ hl; simp [alLookup] at hl
  | cons hd tl ih =>
    obtain ⟨k2, w⟩ := hd
    intro k v hobj hl
    simp only [refsGEObj] at hobj
    simp only [alLookup] at hl
    split at hl
    · cases hl; exact hobj.1
    · exact ih k v hobj.2 hl

theorem refsGEObj_alSet {n : Nat} : ∀ (obj : HObj) (k : String) (v : HVal),
    refsGEObj n obj → refsGE n v → refsGEObj n (alSet obj k v) := by
  intro obj
  induction obj with
  | nil => intro k v _ hv; exact ⟨hv, trivial⟩
  | cons hd tl ih =>
    obtain ⟨k2, w⟩ := hd
    intro k v hobj hv
    simp only [refsGEObj] at hobj
    simp only [alSet]
    split
    · exact ⟨hv, hobj.2⟩
    · exact ⟨hobj.1, ih k v hobj.2 hv⟩

theorem get?_append_lt {α : Type} : ∀ (l1 l2 : List α) (a : Nat), a < l1.length →
    (l1 ++ l2).get? a = l1.get? a := by
  intro l1
  induction l1 with
  | nil => intro l2 a h; simp at h
  | cons x rest ih =>
    intro l2 a h
    cases a with
    | zero => rfl
    | succ a2 => exact ih l2 a2 (by simpa using h)

theorem get?_append_ge {α : Type} : ∀ (l1 l2 : List α) (a : Nat), l1.length ≤ a →
    (l1 ++ l2).get? a = l2.get? (a - l1.length) := by
  intro l1
  induction l1 with
  | nil => intro l2 a _; simp
  | cons x rest ih =>
    intro l2 a h
    cases a with
    | zero => simp at h
    | succ a2 =>
      simp only [List.cons_append, List.get?]
      have h2 := ih l2 a2 (by simpa using h)
      have h3 : a2 + 1 - (x :: rest).length = a2 - rest.length := by
        simp
      rw [h3]
      exact h2

theorem get?_some_lt {α : Type} : ∀ (l : List α) (a : Nat) (x : α),
    l.get? a = some x → a < l.length := by
  intro l
  induction l with
  | nil => intro a x h; simp [List.get?] at h
  | cons y rest ih =>
    intro a x h
    cases a with
    | zero => simp
    | succ a2 =>
      simp only [List.get?] at h
      have := ih a2 x h
      simp
      omega

theorem get?_set_ne {α : Type} : ∀ (l : List α) (i j : Nat) (x : α), i ≠ j →
    (l.set i x).get? j = l.get? j := by
  intro l
  induction l with
  | nil => intro i j x _; simp
  | cons y rest ih =>
    intro i j x hij
    cases i with
    | zero =>
      cases j with
      | zero => exact absurd rfl hij
      | succ j2 => rfl
    | succ i2 =>
      cases j with
      | zero => rfl
      | succ j2 => exact ih i2 j2 x (fun he => hij (by rw [he]))

theorem get?_set_self {α : Type} : ∀ (l : List α) (i : Nat) (x y : α),
    l.get? i = some y → (l.set i x).get? i = some x := by
  intro l
  induction l with
  | nil => intro i x y h; simp [List.get?] at h
  | cons z rest ih =>
    intro i x y h
    cases i with
    | zero => rfl
    | succ i2 => exact ih i2 x y h

theorem get?_concat_self {α : Type} : ∀ (l : List α) (x : α),
    (l ++ [x]).get? l.length = some x := by
  intro l x
  rw [get?_append_ge l [x] l.length (le_refl _)]
  simp

/-- Specification of the heap-level deep copy: the heap is only extended
(existing cells untouched), every reference in the copied value points
into the extension, and every object in the extension references only the
extension. -/
theorem copy_spec : ∀ fuel : Nat,
    (∀ (h : Heap) (v : HVal) (h2 : Heap) (v2 : HVal), copyHVal fuel h v = some (h2, v2) →
      (∃ ext, h2 = h ++ ext) ∧ refsGE h.length v2 ∧
      (∀ a, h.length ≤ a → ∀ o2, h2.get? a = some o2 → refsGEObj h.length o2)) ∧
    (∀ (h : Heap) (obj : HObj) (h2 : Heap) (obj2 : HObj), copyHObj fuel h obj = some (h2, obj2) →
      (∃ ext, h2 = h ++ ext) ∧ refsGEObj h.length obj2 ∧
      (∀ a, h.length ≤ a → ∀ o2, h2.get? a = some o2 → refsGEObj h.length o2)) ∧
    (∀ (h : Heap) (xs : List HVal) (h2 : Heap) (xs2 : List HVal),
      copyHList fuel h xs = some (h2, xs2) →
      (∃ ext, h2 = h ++ ext) ∧ refsGEList h.length xs2 ∧
      (∀ a, h.length ≤ a → ∀ o2, h2.get? a = some o2 → refsGEObj h.length o2)) := by
  intro fuel
  induction fuel with
  | zero =>
    refine ⟨?_, ?_, ?_⟩ <;> intro h x h2 x2 hc <;> simp [copyHVal, copyHObj, copyHList] at hc
  | succ fuel ih =>
    obtain ⟨ihv, iho, ihl⟩ := ih
    have trivialFresh : ∀ (h : Heap), ∀ a, h.length ≤ a → ∀ o2 : HObj,
        h.get? a = some o2 → refsGEObj h.length o2 := by
      intro h a ha o2 hg
      exact absurd (get?_some_lt h a o2 hg) (by omega)
    have hListMono : ∀ (m n : Nat), m ≤ n → ∀ ys : List HVal,
        refsGEList n ys → refsGEList m ys := by
      intro m n hmn ys hys
      induction ys with
      | nil => trivial
      | cons y yr ihy =>
        simp only [refsGEList] at hys ⊢
        exact ⟨refsGE_mono hmn y hys.1, ihy hys.2⟩
    refine ⟨?_, ?_, ?_⟩
    · intro h v h2 v2 hc
      cases v with
      | ref a =>
        simp only [copyHVal] at hc
        split at hc
        · cases hc
        · rename_i obj hga
          split at hc
          · cases hc
          · rename_i h1 obj2 hco
            simp only [Option.some.injEq, Prod.mk.injEq] at hc
            obtain ⟨hh2, hv2⟩ := hc
            obtain ⟨⟨ext1, hext1⟩, hobj2, hfresh1⟩ := iho h obj h1 obj2 hco
            have hlen : h.length ≤ h1.length := by
              rw [hext1, List.length_append]; omega
            refine ⟨⟨ext1 ++ [obj2], by rw [← hh2, hext1, List.append_assoc]⟩, ?_, ?_⟩
            · rw [← hv2]
              exact hlen
            · intro a2 ha2 o2 hg
              rw [← hh2] at hg
              by_cases hlt : a2 < h1.length
              · rw [get?_append_lt h1 [obj2] a2 hlt] at hg
                exact hfresh1 a2 ha2 o2 hg
              · by_cases heq2 : a2 = h1.length
                · rw [heq2, get?_concat_self] at hg
                  cases hg
                  exact hobj2
                · rw [get?_append_ge h1 [obj2] a2 (by omega)] at hg
                  have := get?_some_lt [obj2] (a2 - h1.length) o2 hg
                  simp at this
                  omega
      | arr xs =>
        simp only [copyHVal] at hc
        split at hc
        · cases hc
        · rename_i h1 xs2 hcl
          simp only [Option.some.injEq, Prod.mk.injEq] at hc
          obtain ⟨hh2, hv2⟩ := hc
          obtain ⟨hext, hxs2, hfresh⟩ := ihl h xs h1 xs2 hcl
          subst hh2
          refine ⟨hext, ?_, hfresh⟩
          rw [← hv2]
          exact hxs2
      | str s =>
        simp only [copyHVal, Option.some.injEq, Prod.mk.injEq] at hc
        obtain ⟨hh2, hv2⟩ := hc
        subst hh2
        exact ⟨⟨[], by simp⟩, by rw [← hv2]; trivial, trivialFresh h⟩
      | int n =>
        simp only [copyHVal, Option.some.injEq, Prod.mk.injEq] at hc
        obtain ⟨hh2, hv2⟩ := hc
        subst hh2
        exact ⟨⟨[], by simp⟩, by rw [← hv2]; trivial, trivialFresh h⟩
      | float q =>
        simp only [copyHVal, Option.some.injEq, Prod.mk.injEq] at hc
        obtain ⟨hh2, hv2⟩ := hc
        subst hh2
        exact ⟨⟨[], by simp⟩, by rw [← hv2]; trivial, trivialFresh h⟩
      | bool b =>
        simp only [copyHVal, Option.some.injEq, Prod.mk.injEq] at hc
        obtain ⟨hh2, hv2⟩ := hc
        subst hh2
        exact ⟨⟨[], by simp⟩, by rw [← hv2]; trivial, trivialFresh h⟩
      | null =>
        simp only [copyHVal, Option.some.injEq, Prod.mk.injEq] at hc
        obtain ⟨hh2, hv2⟩ := hc
        subst hh2
        exact ⟨⟨[], by simp⟩, by rw [← hv2]; trivial, trivialFresh h⟩
    · intro h obj h2 obj2 hc
      cases obj with
      | nil =>
        simp only [copyHObj, Option.some.injEq, Prod.mk.injEq] at hc
        obtain ⟨hh2, ho2⟩ := hc
        subst hh2
        exact ⟨⟨[], by simp⟩, by rw [← ho2]; trivial, trivialFresh h⟩
      | cons hd rest =>
        obtain ⟨k, v⟩ := hd
        simp only [copyHObj] at hc
        split at hc
        · cases hc
        · rename_i h1 v2 hcv
          split at hc
          · cases hc
          · rename_i h3 rest2 hcr
            simp only [Option.some.injEq, Prod.mk.injEq] at hc
            obtain ⟨hh2, ho2⟩ := hc
            obtain ⟨⟨ext1, hext1⟩, hv2, hfresh1⟩ := ihv h v h1 v2 hcv
            obtain ⟨⟨ext2, hext2⟩, hrest2, hfresh2⟩ := iho h1 rest h3 rest2 hcr
            have hlen : h.length ≤ h1.length := by
              rw [hext1, List.length_append]; omega
            subst hh2
            refine ⟨⟨ext1 ++ ext2, by rw [hext2, hext1, List.append_assoc]⟩, ?_, ?_⟩
            · rw [← ho2]
              exact ⟨hv2, refsGEObj_mono hlen rest2 hrest2⟩
            · intro a2 ha2 o2 hg
              by_cases hlt : a2 < h1.length
              · rw [hext2, get?_append_lt h1 ext2 a2 hlt] at hg
                exact hfresh1 a2 ha2 o2 hg
              · exact refsGEObj_mono hlen o2 (hfresh2 a2 (by omega) o2 hg)
    · intro h xs h2 xs2 hc
      cases xs with
      | nil =>
        simp only [copyHList, Option.some.injEq, Prod.mk.injEq] at hc
        obtain ⟨hh2, hx2⟩ := hc
        subst hh2
        exact ⟨⟨[], by simp⟩, by rw [← hx2]; trivial, trivialFresh h⟩
      | cons x rest =>
        simp only [copyHList] at hc
        split at hc
        · cases hc
        · rename_i h1 x2 hcv
          split at hc
          · cases hc
          · rename_i h3 rest2 hcr
            simp only [Option.some.injEq, Prod.mk.injEq] at hc
            obtain ⟨hh2, hx2⟩ := hc
            obtain ⟨⟨ext1, hext1⟩, hx2v, hfresh1⟩ := ihv h x h1 x2 hcv
            obtain ⟨⟨ext2, hext2⟩, hrest2, hfresh2⟩ := ihl h1 rest h3 rest2 hcr
            have hlen : h.length ≤ h1.length := by
              rw [hext1, List.length_append]; omega
            subst hh2
            refine ⟨⟨ext1 ++ ext2, by rw [hext2, hext1, List.append_assoc]⟩, ?_, ?_⟩
            · rw [← hx2]
              exact ⟨hx2v, hListMono h.length h1.length hlen rest2 hrest2⟩
            · intro a2 ha2 o2 hg
              by_cases hlt : a2 < h1.length
              · rw [hext2, get?_append_lt h1 ext2 a2 hlt] at hg
                exact hfresh1 a2 ha2 o2 hg
              · exact refsGEObj_mono hlen o2 (hfresh2 a2 (by omega) o2 hg)

theorem getHKeys_refsGE {n : Nat} : ∀ (ks : List String) (h : Heap) (cur v : HVal),
    freshRefs n h → refsGE n cur → getHKeys h cur ks = some v → refsGE n v := by
  intro ks
  induction ks with
  | nil =>
    intro h cur v _ hcur hg
    simp only [getHKeys, Option.some.injEq] at hg
    rw [← hg]
    exact hcur
  | cons k rest ih =>
    intro h cur v hfresh hcur hg
    cases cur with
    | str s => exact Option.noConfusion hg
    | int k2 => exact Option.noConfusion hg
    | float q => exact Option.noConfusion hg
    | bool b => exact Option.noConfusion hg
    | null => exact Option.noConfusion hg
    | arr xs => exact Option.noConfusion hg
    | ref a =>
      simp only [getHKeys] at hg
      cases hga : h.get? a with
      | none => rw [hga] at hg; exact Option.noConfusion hg
      | some obj =>
        rw [hga] at hg
        have hg1 : (match alLookup obj k with
            | some w => getHKeys h w rest
            | none => none) = some v := hg
        cases hlk : alLookup obj k with
        | none => rw [hlk] at hg1; exact Option.noConfusion hg1
        | some w =>
          rw [hlk] at hg1
          have hg2 : getHKeys h w rest = some v := hg1
          have hobj : refsGEObj n obj := hfresh a hcur obj hga
          exact ih h w v hfresh (refsGE_alLookup obj k w hobj hlk) hg2

theorem computeNewHValue_spec {n : Nat} (fuel : Nat) (h : Heap) (cur : HVal)
    (ty : ValueType) (h3 : Heap) (nv : HVal)
    (hc : computeNewHValue fuel h cur ty = some (h3, nv))
    (hfresh : freshRefs n h) (hcur : refsGE n cur) (hn : n ≤ h.length) :
    (∀ b, b < n → h3.get? b = h.get? b) ∧ refsGE n nv ∧ freshRefs n h3 ∧ n ≤ h3.length := by
  cases ty with
  | string =>
    cases cur with
    | str s =>
      simp only [computeNewHValue, Option.some.injEq, Prod.mk.injEq] at hc
      obtain ⟨hh, hv⟩ := hc
      subst hh
      exact ⟨fun b _ => rfl, by rw [← hv]; trivial, hfresh, hn⟩
    | int k => exact Option.noConfusion hc
    | float q => exact Option.noConfusion hc
    | bool b => exact Option.noConfusion hc
    | null => exact Option.noConfusion hc
    | arr xs => exact Option.noConfusion hc
    | ref a => exact Option.noConfusion hc
  | int =>
    cases cur with
    | int k =>
      simp only [computeNewHValue, Option.some.injEq, Prod.mk.injEq] at hc
      obtain ⟨hh, hv⟩ := hc
      subst hh
      exact ⟨fun b _ => rfl, by rw [← hv]; trivial, hfresh, hn⟩
    | float q =>
      simp only [computeNewHValue, Option.some.injEq, Prod.mk.injEq] at hc
      obtain ⟨hh, hv⟩ := hc
      subst hh
      exact ⟨fun b _ => rfl, by rw [← hv]; trivial, hfresh, hn⟩
    | str s => exact Option.noConfusion hc
    | bool b => exact Option.noConfusion hc
    | null => exact Option.noConfusion hc
    | arr xs => exact Option.noConfusion hc
    | ref a => exact Option.noConfusion hc
  | bool =>
    cases cur with
    | bool b =>
      simp only [computeNewHValue, Option.some.injEq, Prod.mk.injEq] at hc
      obtain ⟨hh, hv⟩ := hc
      subst hh
      exact ⟨fun b2 _ => rfl, by rw [← hv]; trivial, hfresh, hn⟩
    | str s => exact Option.noConfusion hc
    | int k => exact Option.noConfusion hc
    | float q => exact Option.noConfusion hc
    | null => exact Option.noConfusion hc
    | arr xs => exact Option.noConfusion hc
    | ref a => exact Option.noConfusion hc
  | slice =>
    cases cur with
    | arr xs =>
      simp only [computeNewHValue, Option.some.injEq, Prod.mk.injEq] at hc
      obtain ⟨hh, hv⟩ := hc
      subst hh
      refine ⟨fun b _ => rfl, ?_, hfresh, hn⟩
      rw [← hv]
      simp only [refsGE] at hcur ⊢
      exact refsGEList_append xs [.str "helmhound-test-element"] hcur ⟨trivial, trivial⟩
    | str s => exact Option.noConfusion hc
    | int k => exact Option.noConfusion hc
    | float q => exact Option.noConfusion hc
    | bool b => exact Option.noConfusion hc
    | null => exact Option.noConfusion hc
    | ref a => exact Option.noConfusion hc
  | map =>
    cases cur with
    | ref a =>
      simp only [computeNewHValue] at hc
      split at hc
      · cases hc
      · rename_i obj hga
        split at hc
        · cases hc
        · rename_i h1 obj2 hco
          simp only [Option.some.injEq, Prod.mk.injEq] at hc
          obtain ⟨hh, hv⟩ := hc
          obtain ⟨⟨ext1, hext1⟩, hobj2, hfresh1⟩ := (copy_spec fuel).2.1 h obj h1 obj2 hco
          have hlen : h.length ≤ h1.length := by
            rw [hext1, List.length_append]; omega
          have hobj2n : refsGEObj n obj2 := refsGEObj_mono hn obj2 hobj2
          have hnewobj : refsGEObj n
              (alSet obj2 "helmhound-test-key" (.str "helmhound-test-value")) :=
            refsGEObj_alSet obj2 _ _ hobj2n trivial
          refine ⟨?_, ?_, ?_, ?_⟩
          · intro b hb
            rw [← hh, hext1]
            rw [show h ++ ext1 ++ [alSet obj2 "helmhound-test-key" (.str "helmhound-test-value")]
              = h ++ (ext1 ++ [alSet obj2 "helmhound-test-key" (.str "helmhound-test-value")])
              from by rw [List.append_assoc]]
            exact get?_append_lt h _ b (by omega)
          · rw [← hv]
            show n ≤ h1.length
            omega
          · intro a2 ha2 o2 hg
            rw [← hh] at hg
            by_cases hlt : a2 < h1.length
            · rw [get?_append_lt h1 _ a2 hlt] at hg
              by_cases hlt2 : a2 < h.length
              · rw [hext1, get?_append_lt h ext1 a2 hlt2] at hg
                exact hfresh a2 ha2 o2 hg
              · exact refsGEObj_mono hn o2 (hfresh1 a2 (by omega) o2 hg)
            · by_cases heq2 : a2 = h1.length
              · rw [heq2, get?_concat_self] at hg
                cases hg
                exact hnewobj
              · rw [get?_append_ge h1 _ a2 (by omega)] at hg
                have := get?_some_lt _ _ _ hg
                simp at this
                omega
          · rw [← hh, List.length_append]
            simp
            omega
    | str s => exact Option.noConfusion hc
    | int k => exact Option.noConfusion hc
    | float q => exact Option.noConfusion hc
    | bool b => exact Option.noConfusion hc
    | null => exact Option.noConfusion hc
    | arr xs => exact Option.noConfusion hc
  | unknown => exact Option.noConfusion hc

theorem setHKeys_spec {n : Nat} : ∀ (ks : List String) (h : Heap) (a : Nat) (v : HVal)
    (h4 : Heap), setHKeys h a ks v = some h4 → freshRefs n h → n ≤ a → refsGE n v →
    n ≤ h.length →
    (∀ b, b < n → h4.get? b = h.get? b) ∧ freshRefs n h4 ∧ n ≤ h4.length := by
  intro ks
  induction ks with
  | nil => intro h a v h4 hc; exact Option.noConfusion hc
  | cons k rest ih =>
    intro h a v h4 hc hfresh ha hv hn
    cases rest with
    | nil =>
      simp only [setHKeys] at hc
      cases hga : h.get? a with
      | none => rw [hga] at hc; exact Option.noConfusion hc
      | some obj =>
        rw [hga] at hc
        simp only [Option.some.injEq] at hc
        have hobj : refsGEObj n obj := hfresh a ha obj hga
        refine ⟨?_, ?_, ?_⟩
        · intro b hb
          rw [← hc]
          exact get?_set_ne h a b _ (by omega)
        · intro a2 ha2 o2 hg
          rw [← hc] at hg
          by_cases heq : a2 = a
          · subst heq
            have hset := get?_set_self h a2 (alSet obj k v) obj hga
            rw [hset] at hg
            cases hg
            exact refsGEObj_alSet obj k v hobj hv
          · rw [get?_set_ne h a a2 _ (fun he => heq he.symm)] at hg
            exact hfresh a2 ha2 o2 hg
        · rw [← hc]
          simpa using hn
    | cons k2 rest2 =>
      simp only [setHKeys] at hc
      cases hga : h.get? a with
      | none => rw [hga] at hc; exact Option.noConfusion hc
      | some obj =>
        rw [hga] at hc
        have hobj : refsGEObj n obj := hfresh a ha obj hga
        have hc1 : (match alLookup obj k with
            | some (.ref b) => setHKeys h b (k2 :: rest2) v
            | some _ => none
            | none =>
              setHKeys ((h ++ [[]]).set a (alSet obj k (.ref h.length))) h.length
                (k2 :: rest2) v) = some h4 := hc
        cases hlk : alLookup obj k with
        | some w =>
          rw [hlk] at hc1
          cases w with
          | ref b =>
            have hb : n ≤ b := refsGE_alLookup obj k (.ref b) hobj hlk
            have hc2 : setHKeys h b (k2 :: rest2) v = some h4 := hc1
            exact ih h b v h4 hc2 hfresh hb hv hn
          | str s => exact Option.noConfusion hc1
          | int k3 => exact Option.noConfusion hc1
          | float q => exact Option.noConfusion hc1
          | bool b2 => exact Option.noConfusion hc1
          | null => exact Option.noConfusion hc1
          | arr xs => exact Option.noConfusion hc1
        | none =>
          rw [hlk] at hc1
          have hc2 : setHKeys ((h ++ [[]]).set a (alSet obj k (.ref h.length))) h.length
              (k2 :: rest2) v = some h4 := hc1
          have halt : a < h.length := get?_some_lt h a obj hga
          have hfresh2 : freshRefs n ((h ++ [[]]).set a (alSet obj k (.ref h.length))) := by
            intro a2 ha2 o2 hg
            by_cases heq : a2 = a
            · subst heq
              have hget : (h ++ [[]]).get? a2 = some obj := by
                rw [get?_append_lt h [[]] a2 halt]
                exact hga
              have hset := get?_set_self (h ++ [[]]) a2 (alSet obj k (.ref h.length)) obj hget
              rw [hset] at hg
              cases hg
              exact refsGEObj_alSet obj k (.ref h.length) hobj hn
            · rw [get?_set_ne (h ++ [[]]) a a2 _ (fun he => heq he.symm)] at hg
              by_cases hlt : a2 < h.length
              · rw [get?_append_lt h [[]] a2 hlt] at hg
                exact hfresh a2 ha2 o2 hg
              · by_cases heq2 : a2 = h.length
                · rw [heq2, get?_concat_self] at hg
                  cases hg
                  trivial
                · rw [get?_append_ge h [[]] a2 (by omega)] at hg
                  have := get?_some_lt [[]] (a2 - h.length) o2 hg
                  simp at this
                  omega
          have hlen2 : n ≤ ((h ++ [[]]).set a (alSet obj k (.ref h.length))).length := by
            simp
            omega
          obtain ⟨hagree, hfresh4, hlen4⟩ :=
            ih ((h ++ [[]]).set a (alSet obj k (.ref h.length))) h.length v h4 hc2 hfresh2
              hn hv hlen2
          refine ⟨?_, hfresh4, hlen4⟩
          intro b hb
          rw [hagree b hb]
          rw [get?_set_ne (h ++ [[]]) a b _ (by omega)]
          exact get?_append_lt h [[]] b (by omega)

/-- Frame property of the heap-level `modifyValueAtPath`: no address that
existed before the call is ever written — succeed or fail, the entire
original heap region of the caller is unchanged. -/
theorem modifyH_frame (fuel : Nat) (h0 : Heap) (root : Nat) (path : String)
    (ty : ValueType) : ∀ b, b < h0.length →
    (modifyHValueAtPath fuel h0 root path ty).1.get? b = h0.get? b := by
  intro b hb
  cases hgr : h0.get? root with
  | none =>
    have hm : modifyHValueAtPath fuel h0 root path ty = (h0, none) := by
      simp only [modifyHValueAtPath, hgr]
    rw [hm]
  | some obj =>
    cases hco : copyHObj fuel h0 obj with
    | none =>
      have hm : modifyHValueAtPath fuel h0 root path ty = (h0, none) := by
        simp only [modifyHValueAtPath, hgr, hco]
      rw [hm]
    | some pr =>
      obtain ⟨h1, obj2⟩ := pr
      obtain ⟨⟨ext1, hext1⟩, hobj2, hfresh1⟩ := (copy_spec fuel).2.1 h0 obj h1 obj2 hco
      have hlen1 : h0.length ≤ h1.length := by
        rw [hext1, List.length_append]; omega
      have hag2 : ∀ c, c < h0.length → (h1 ++ [obj2]).get? c = h0.get? c := by
        intro c hc
        rw [get?_append_lt h1 [obj2] c (by omega), hext1, get?_append_lt h0 ext1 c hc]
      have hfresh2 : freshRefs h0.length (h1 ++ [obj2]) := by
        intro a2 ha2 o2 hg
        by_cases hlt : a2 < h1.length
        · rw [get?_append_lt h1 [obj2] a2 hlt] at hg
          exact hfresh1 a2 ha2 o2 hg
        · by_cases heq2 : a2 = h1.length
          · rw [heq2, get?_concat_self] at hg
            cases hg
            exact hobj2
          · rw [get?_append_ge h1 [obj2] a2 (by omega)] at hg
            have := get?_some_lt [obj2] (a2 - h1.length) o2 hg
            simp at this
            omega
      have hlen2 : h0.length ≤ (h1 ++ [obj2]).length := by
        rw [List.length_append]; omega
      cases hget : getHValueAtPath (h1 ++ [obj2]) (.ref h1.length) path with
      | none =>
        have hm : modifyHValueAtPath fuel h0 root path ty = (h1 ++ [obj2], none) := by
          simp only [modifyHValueAtPath, hgr, hco, hget]
        rw [hm]
        exact hag2 b hb
      | some cur =>
        have hcur : refsGE h0.length cur := by
          rw [getHValueAtPath] at hget
          by_cases hpe : path = ""
          · rw [if_pos hpe] at hget
            simp only [Option.some.injEq] at hget
            rw [← hget]
            exact hlen1
          · rw [if_neg hpe] at hget
            exact getHKeys_refsGE (splitPath path) (h1 ++ [obj2]) (.ref h1.length) cur
              hfresh2 hlen1 hget
        cases hnv : computeNewHValue fuel (h1 ++ [obj2]) cur ty with
        | none =>
          have hm : modifyHValueAtPath fuel h0 root path ty = (h1 ++ [obj2], none) := by
            simp only [modifyHValueAtPath, hgr, hco, hget, hnv]
          rw [hm]
          exact hag2 b hb
        | some pr2 =>
          obtain ⟨h3, nv⟩ := pr2
          obtain ⟨hag3, hnvGE, hfresh3, hlen3⟩ :=
            computeNewHValue_spec fuel (h1 ++ [obj2]) cur ty h3 nv hnv hfresh2 hcur hlen2
          cases hset : setHValueAtPath h3 h1.length path nv with
          | none =>
            have hm : modifyHValueAtPath fuel h0 root path ty = (h3, none) := by
              simp only [modifyHValueAtPath, hgr, hco, hget, hnv, hset]
            rw [hm]
            simp only
            rw [hag3 b hb]
            exact hag2 b hb
          | some h4 =>
            have hm : modifyHValueAtPath fuel h0 root path ty = (h4, some h1.length) := by
              simp only [modifyHValueAtPath, hgr, hco, hget, hnv, hset]
            rw [hm]
            simp only
            rw [setHValueAtPath] at hset
            by_cases hpe : path = ""
            · rw [if_pos hpe] at hset
              cases hset
            · rw [if_neg hpe] at hset
              obtain ⟨hag4, _, _⟩ :=
                setHKeys_spec (splitPath path) h3 h1.length nv h4 hset hfresh3 hlen1 hnvGE
                  hlen3
              rw [hag4 b hb, hag3 b hb]
              exact hag2 b hb

theorem resolve_heap_mono : ∀ (rf : Nat) (h h2 : Heap),
    (∀ a obj, h.get? a = some obj → h2.get? a = some obj) →
    (∀ (v : HVal) (t : Val), resolveHVal rf h v = some t → resolveHVal rf h2 v = some t) ∧
    (∀ (obj : HObj) (m : List (String × Val)), resolveHObj rf h obj = some m →
      resolveHObj rf h2 obj = some m) ∧
    (∀ (xs : List HVal) (ys : List Val), resolveHList rf h xs = some ys →
      resolveHList rf h2 xs = some ys) := by
  intro rf
  induction rf with
  | zero =>
    intro h h2 _
    refine ⟨?_, ?_, ?_⟩ <;> intro x y hr <;>
      simp [resolveHVal, resolveHObj, resolveHList] at hr
  | succ rf ih =>
    intro h h2 hsub
    obtain ⟨ihv, iho, ihl⟩ := ih h h2 hsub
    refine ⟨?_, ?_, ?_⟩
    · intro v t hr
      cases v with
      | ref a =>
        simp only [resolveHVal] at hr ⊢
        cases hga : h.get? a with
        | none => rw [hga] at hr; exact Option.noConfusion hr
        | some obj =>
          rw [hga] at hr
          rw [hsub a obj hga]
          have hr1 : (match resolveHObj rf h obj with
              | none => none
              | some m => some (Val.map m)) = some t := hr
          cases hro : resolveHObj rf h obj with
          | none => rw [hro] at hr1; exact Option.noConfusion hr1
          | some m =>
            rw [hro] at hr1
            show (match resolveHObj rf h2 obj with
              | none => none
              | some m2 => some (Val.map m2)) = some t
            rw [iho obj m hro]
            exact hr1
      | arr xs =>
        simp only [resolveHVal] at hr ⊢
        cases hrl : resolveHList rf h xs with
        | none => rw [hrl] at hr; exact Option.noConfusion hr
        | some ys =>
          rw [hrl] at hr
          rw [ihl xs ys hrl]
          exact hr
      | str s => exact hr
      | int n => exact hr
      | float q => exact hr
      | bool b => exact hr
      | null => exact hr
    · intro obj m hr
      cases obj with
      | nil => exact hr
      | cons hd rest =>
        obtain ⟨k, v⟩ := hd
        simp only [resolveHObj] at hr ⊢
        cases hrv : resolveHVal rf h v with
        | none => rw [hrv] at hr; exact Option.noConfusion hr
        | some v2 =>
          rw [hrv] at hr
          rw [ihv v v2 hrv]
          have hr1 : (match resolveHObj rf h rest with
              | none => none
              | some rest2 => some ((k, v2) :: rest2)) = some m := hr
          cases hrr : resolveHObj rf h rest with
          | none => rw [hrr] at hr1; exact Option.noConfusion hr1
          | some rest2 =>
            rw [hrr] at hr1
            show (match resolveHObj rf h2 rest with
              | none => none
              | some rest2 => some ((k, v2) :: rest2)) = some m
            rw [iho rest rest2 hrr]
            exact hr1
    · intro xs ys hr
      cases xs with
      | nil => exact hr
      | cons x rest =>
        simp only [resolveHList] at hr ⊢
        cases hrv : resolveHVal rf h x with
        | none => rw [hrv] at hr; exact Option.noConfusion hr
        | some y =>
          rw [hrv] at hr
          rw [ihv x y hrv]
          have hr1 : (match resolveHList rf h rest with
              | none => none
              | some ys2 => some (y :: ys2)) = some ys := hr
          cases hrr : resolveHList rf h rest with
          | none => rw [hrr] at hr1; exact Option.noConfusion hr1
          | some ys2 =>
            rw [hrr] at hr1
            show (match resolveHList rf h2 rest with
              | none => none
              | some ys2 => some (y :: ys2)) = some ys
            rw [ihl rest ys2 hrr]
            exact hr1

/-- C5: `Mutate` never changes the input tree of the caller. Whatever heap
region the `values` map of the caller lives in before the call, resolving
the root reference of the caller after `modifyValueAtPath` — whether the call
succeeded or failed at any stage — yields exactly the tree it held
before: the mutation happens on a freshly allocated deep copy and every
write lands in the fresh region. -/
theorem c5_mutate_never_touches_caller (fuel rf : Nat) (h0 : Heap) (root : Nat)
    (path : String) (ty : ValueType) (t : Val)
    (hres : resolveHVal rf h0 (.ref root) = some t) :
    resolveHVal rf (modifyHValueAtPath fuel h0 root path ty).1 (.ref root) = some t := by
  have hsub : ∀ a obj, h0.get? a = some obj →
      (modifyHValueAtPath fuel h0 root path ty).1.get? a = some obj := by
    intro a obj hga
    rw [modifyH_frame fuel h0 root path ty a (get?_some_lt h0 a obj hga)]
    exact hga
  exact (resolve_heap_mono rf h0 (modifyHValueAtPath fuel h0 root path ty).1 hsub).1
    (.ref root) t hres

theorem c5_witness :
    resolveHVal 5 [[("a", HVal.int 1)]] (.ref 0) = some (Val.map [("a", Val.int 1)]) ∧
      resolveHVal 5 (modifyHValueAtPath 9 [[("a", HVal.int 1)]] 0 "a" .int).1 (.ref 0) =
        some (Val.map [("a", Val.int 1)]) :=
  ⟨rfl, c5_mutate_never_touches_caller 9 5 [[("a", HVal.int 1)]] 0 "a" .int
    (Val.map [("a", Val.int 1)]) rfl⟩
